import Mathlib

/-!
A shallow embedding of `queue.c`.

The queue of `queue.c` is a circular doubly linked list of `element_t`
records threaded through an anchor `struct list_head`.  The embedding keeps
the pointer structure: memory is a record of fields indexed by addresses
(natural numbers, `0` being `NULL`), the operations are memory transformers,
and every loop that follows pointers takes a fuel argument.

Conventions of the embedding.

* An element is identified with the address of its embedded `list_head`
  (`container_of` / `list_entry` is the identity on addresses).
* A C string is the list of its bytes before the terminator.
* `malloc` is an external call: its result is an argument of the operation
  that calls it (`0` when the allocation fails).
* `none` as a result means that the C program has no defined result there:
  a traversal that does not come back to the anchor within the fuel, an
  `int` counter incremented past `INT_MAX`, a dereferenced `NULL`, or a
  `strncpy` of `SIZE_MAX` bytes.
-/

namespace Queue

/-! ## Memory -/

/-- Pointwise update of a memory field. -/
def upd {β : Type} (f : Nat → β) (a : Nat) (b : β) : Nat → β :=
  fun x => if x = a then b else f x

/-- The memory seen by `queue.c`.  `next` and `prev` are the two fields of
the `struct list_head` at an address, `value` is the `char *value` field of
the `element_t` at an address, `str` is the C string stored in the buffer at
an address, `buf` is the byte memory of the caller (where the `sp` buffers of
the remove operations live) and `live` tells which addresses are allocated. -/
structure Mem where
  next : Nat → Nat
  prev : Nat → Nat
  value : Nat → Nat
  str : Nat → List Nat
  buf : Nat → Nat
  live : Nat → Bool

/-- The assignment `a->next = b`. -/
def setNext (m : Mem) (a b : Nat) : Mem := { m with next := upd m.next a b }

/-- The assignment `a->prev = b`. -/
def setPrev (m : Mem) (a b : Nat) : Mem := { m with prev := upd m.prev a b }

/-- The assignment `e->value = p`. -/
def setValue (m : Mem) (e p : Nat) : Mem := { m with value := upd m.value e p }

/-- The buffer at `p` is made to hold the C string `s`. -/
def setStr (m : Mem) (p : Nat) (s : List Nat) : Mem := { m with str := upd m.str p s }

/-- The largest `int`. -/
def INT_MAX : Nat := 2147483647

/-- The number of values of `size_t`. -/
def SIZE_MOD : Nat := 2 ^ 64

/-- The call `malloc(..)` returning `r`: a null result allocates nothing. -/
def malloc (m : Mem) (r : Nat) : Mem :=
  if r = 0 then m else { m with live := upd m.live r true }

/-- The call `free(p)`; `free(NULL)` does nothing. -/
def free (m : Mem) (p : Nat) : Mem :=
  if p = 0 then m else { m with live := upd m.live p false }

/-- The length of a C string. -/
def strlen (s : List Nat) : Nat := s.length

/-- The call `strncpy(dst, src, n)` into caller memory: exactly `n` bytes are
written at `dst`, the bytes of `src` followed by zero bytes. -/
def strncpy (m : Mem) (dst : Nat) (src : List Nat) (n : Nat) : Mem :=
  { m with buf := fun a => if dst ≤ a ∧ a < dst + n then src.getD (a - dst) 0 else m.buf a }

/-- The assignment `p[i] = b` into caller memory. -/
def setByte (m : Mem) (p i b : Nat) : Mem := { m with buf := upd m.buf (p + i) b }

/-! ## The primitives of `list.h` -/

/-- Modelled from the spec: `INIT_LIST_HEAD` of `list.h`, which is not part of
the sources.  An isolated node has `next` and `prev` pointing to itself. -/
def INIT_LIST_HEAD (m : Mem) (head : Nat) : Mem :=
  setPrev (setNext m head head) head head

/-- Modelled from the spec: `list_empty` of `list.h`.  An anchor whose `next`
is itself denotes an empty list. -/
def list_empty (m : Mem) (head : Nat) : Bool := decide (m.next head = head)

/-- Modelled from the spec: `list_add` of `list.h`.  Links `node` as the new
first position after the anchor. -/
def list_add (m : Mem) (node head : Nat) : Mem :=
  let next := m.next head
  let m1 := setPrev m next node
  let m2 := setNext m1 node next
  let m3 := setPrev m2 node head
  setNext m3 head node

/-- Modelled from the spec: `list_add_tail` of `list.h`.  Links `node` as the
new last position before the anchor. -/
def list_add_tail (m : Mem) (node head : Nat) : Mem :=
  let prev := m.prev head
  let m1 := setNext m prev node
  let m2 := setNext m1 node head
  let m3 := setPrev m2 node prev
  setPrev m3 head node

/-- Modelled from the spec: `list_del` of `list.h`.  Unlinks `node` from the
chain by joining its two neighbours; the node itself is not written. -/
def list_del (m : Mem) (node : Nat) : Mem :=
  let next := m.next node
  let prev := m.prev node
  let m1 := setPrev m next prev
  setNext m1 prev next

/-- Modelled from the spec: `list_move` of `list.h`.  Unlinks `node` and links
it again as the first position after the anchor. -/
def list_move (m : Mem) (node head : Nat) : Mem :=
  list_add (list_del m node) node head

/-! ## The operations of `queue.c` -/

/-- `q_new`, with `r` the result of its `malloc`. -/
def q_new (m : Mem) (r : Nat) : Nat × Mem :=
  let h := r
  let m1 := malloc m r
  if h = 0 then (0, m1) else (h, INIT_LIST_HEAD m1 h)

/-- `q_release_element`: `e->value` is read first, so a null `e` is a null
dereference (`none`). -/
def q_release_element (m : Mem) (e : Nat) : Option Mem :=
  if e = 0 then none else some (free (free m (m.value e)) e)

/-- The loop `list_for_each_entry_safe (entry, tmp, l, list)` of `q_free`. -/
def q_free_loop : Nat → Mem → Nat → Nat → Nat → Option Mem
  | 0, _, _, _, _ => none
  | fuel + 1, m, l, entry, tmp =>
    if entry = l then some m
    else
      match q_release_element m entry with
      | none => none
      | some m1 => q_free_loop fuel m1 l tmp (m1.next tmp)

/-- `q_free`. -/
def q_free (fuel : Nat) (m : Mem) (l : Nat) : Option Mem :=
  if l = 0 then some m
  else
    match q_free_loop fuel m l (m.next l) (m.next (m.next l)) with
    | none => none
    | some m1 => some (free m1 l)

/-- `q_insert_head`, with `r1` the result of `malloc(sizeof(element_t))` and
`r2` the result of the `malloc` of the string buffer. -/
def q_insert_head (m : Mem) (head : Nat) (s : List Nat) (r1 r2 : Nat) : Bool × Mem :=
  if head = 0 then (false, m)
  else
    let q := r1
    let m1 := malloc m r1
    if q = 0 then (false, m1)
    else
      let m2 := setValue (malloc m1 r2) q r2
      if m2.value q = 0 then (false, free m2 q)
      else
        let m3 := setStr m2 (m2.value q) (s.take (strlen s))
        (true, list_add m3 q head)

/-- `q_insert_tail`, with `r1` and `r2` as in `q_insert_head`. -/
def q_insert_tail (m : Mem) (head : Nat) (s : List Nat) (r1 r2 : Nat) : Bool × Mem :=
  if head = 0 then (false, m)
  else
    let q := r1
    let m1 := malloc m r1
    if q = 0 then (false, m1)
    else
      let m2 := setValue (malloc m1 r2) q r2
      if m2.value q = 0 then (false, free m2 q)
      else
        let m3 := setStr m2 (m2.value q) (s.take (strlen s))
        (true, list_add_tail m3 q head)

/-- The copy into the caller's buffer done by both remove operations:
`strncpy(sp, value, bufsize - 1); sp[bufsize - 1] = 0`, with `bufsize - 1`
computed in `size_t`. -/
def copy_out (m : Mem) (sp : Nat) (v : List Nat) (bufsize : Nat) : Mem :=
  let n := (bufsize + (SIZE_MOD - 1)) % SIZE_MOD
  setByte (strncpy m sp v n) sp n 0

/-- `q_remove_head`: the returned address is `0` for `NULL`.  With a buffer and
`bufsize = 0` the length `bufsize - 1` is `SIZE_MAX`, and a `strncpy` of
`SIZE_MAX` bytes runs past the end of every object: no defined result. -/
def q_remove_head (m : Mem) (head sp bufsize : Nat) : Option (Nat × Mem) :=
  if head = 0 ∨ list_empty m head = true then some (0, m)
  else
    let first_entry := m.next head
    if sp ≠ 0 ∧ (bufsize + (SIZE_MOD - 1)) % SIZE_MOD = SIZE_MOD - 1 then none
    else
      let m1 := if sp ≠ 0 then copy_out m sp (m.str (m.value first_entry)) bufsize else m
      some (first_entry, list_del m1 first_entry)

/-- `q_remove_tail`: the returned address is `0` for `NULL`.  With a buffer and
`bufsize = 0` there is no defined result, as for `q_remove_head`. -/
def q_remove_tail (m : Mem) (head sp bufsize : Nat) : Option (Nat × Mem) :=
  if head = 0 ∨ list_empty m head = true then some (0, m)
  else
    let tail_entry := m.prev head
    if sp ≠ 0 ∧ (bufsize + (SIZE_MOD - 1)) % SIZE_MOD = SIZE_MOD - 1 then none
    else
      let m1 := if sp ≠ 0 then copy_out m sp (m.str (m.value tail_entry)) bufsize else m
      some (tail_entry, list_del m1 tail_entry)

/-- The loop `list_for_each (li, head) len++` of `q_size`.  Incrementing
`len` at `INT_MAX` overflows `int`: no defined result. -/
def q_size_loop : Nat → Mem → Nat → Nat → Nat → Option Nat
  | 0, _, _, _, _ => none
  | fuel + 1, m, head, li, len =>
    if li = head then some len
    else if len = INT_MAX then none
    else q_size_loop fuel m head (m.next li) (len + 1)

/-- `q_size`. -/
def q_size (fuel : Nat) (m : Mem) (head : Nat) : Option Nat :=
  if head = 0 then some 0 else q_size_loop fuel m head (m.next head) 0

/-- The loop `list_for_each_entry_safe (entry, tmp, head, list)` of
`q_delete_mid`, with `size` the running `int`. -/
def q_delete_mid_loop : Nat → Mem → Nat → Nat → Nat → Int → Option (Bool × Mem)
  | 0, _, _, _, _, _ => none
  | fuel + 1, m, head, entry, tmp, size =>
    if entry = head then some (false, m)
    else
      let size1 := size - 2
      if size1 ≤ 0 then
        match q_release_element (list_del m entry) entry with
        | none => none
        | some m1 => some (true, m1)
      else q_delete_mid_loop fuel m head tmp (m.next tmp) size1

/-- `q_delete_mid`. -/
def q_delete_mid (fuel : Nat) (m : Mem) (head : Nat) : Option (Bool × Mem) :=
  if head = 0 ∨ list_empty m head = true then some (false, m)
  else
    match q_size fuel m head with
    | none => none
    | some size => q_delete_mid_loop fuel m head (m.next head) (m.next (m.next head)) size

/-- `q_delete_dup`: the body is `return true;`. -/
def q_delete_dup (m : Mem) (_head : Nat) : Bool × Mem := (true, m)

/-- The loop `while (size--)` of `q_swap`. -/
def q_swap_loop : Nat → Mem → Nat → Bool → Mem
  | 0, m, _, _ => m
  | size + 1, m, head, last =>
    let iterator := m.prev head
    let iterator := if last then m.prev iterator else iterator
    q_swap_loop size (list_move m iterator head) head (!last)

/-- `q_swap`. -/
def q_swap (fuel : Nat) (m : Mem) (head : Nat) : Option Mem :=
  if head = 0 then some m
  else
    let iterator := m.prev head
    match q_size fuel m head with
    | none => none
    | some size =>
      if size % 2 = 1 then some (q_swap_loop (size - 1) (list_move m iterator head) head true)
      else some (q_swap_loop size m head true)

/-- `node_np_swap`: exchanges the `next` and `prev` of a node. -/
def node_np_swap (m : Mem) (node : Nat) : Mem :=
  let tmp := m.next node
  let m1 := setNext m node (m.prev node)
  setPrev m1 node tmp

/-- The loop `list_for_each_safe (node, tmp, head)` of `q_reverse`. -/
def q_reverse_loop : Nat → Mem → Nat → Nat → Nat → Option Mem
  | 0, _, _, _, _ => none
  | fuel + 1, m, head, node, tmp =>
    if node = head then some m
    else
      let m1 := node_np_swap m node
      q_reverse_loop fuel m1 head tmp (m1.next tmp)

/-- `q_reverse`. -/
def q_reverse (fuel : Nat) (m : Mem) (head : Nat) : Option Mem :=
  if head = 0 ∨ list_empty m head = true then some m
  else
    match q_reverse_loop fuel m head (m.next head) (m.next (m.next head)) with
    | none => none
    | some m1 => some (node_np_swap m1 head)

/-- `q_sort`: the body is empty. -/
def q_sort (m : Mem) (_head : Nat) : Mem := m

/-! ## Well-formed lists -/

/-- The memory with the two link fields of every node exchanged. -/
def flip (m : Mem) : Mem := { m with next := m.prev, prev := m.next }

/-- The links from `p` through the nodes of `L` to `q`: following `next` from
`p` visits `L` and then `q`, and `prev` leads back at every step. -/
def Chain (m : Mem) : Nat → List Nat → Nat → Prop
  | p, [], q => m.next p = q ∧ m.prev q = p
  | p, e :: es, q => m.next p = e ∧ m.prev e = p ∧ Chain m e es q

/-- The anchor `head` holds the elements `L`, in this order: the anchor and
the elements are non-null and pairwise distinct, and the links lead from the
anchor through `L` back to the anchor. -/
def IsList (m : Mem) (head : Nat) (L : List Nat) : Prop :=
  head ≠ 0 ∧ (∀ e ∈ L, e ≠ 0) ∧ (head :: L).Nodup ∧ Chain m head L head

/-- The anchor and the elements of `L` are allocated, and every element owns
an allocated string buffer of its own. -/
def Owned (m : Mem) (head : Nat) (L : List Nat) : Prop :=
  (head :: L ++ L.map m.value).Nodup ∧
    ∀ a ∈ head :: L ++ L.map m.value, a ≠ 0 ∧ m.live a = true

/-- A well-formed list: the link structure of `IsList` with the ownership of
`Owned`. -/
def WF (m : Mem) (head : Nat) (L : List Nat) : Prop :=
  IsList m head L ∧ Owned m head L

/-- The values of the elements `L`. -/
def vals (m : Mem) (L : List Nat) : List (List Nat) :=
  L.map (fun e => m.str (m.value e))

/-- A result `malloc` may return on success: a non-null address that is not
allocated. -/
def Fresh (m : Mem) (r : Nat) : Prop := r ≠ 0 ∧ m.live r = false

/-- A node reachable from `head` along `next`. -/
def Reach (m : Mem) (head n : Nat) : Prop := ∃ k : Nat, (m.next)^[k] head = n

/-- The circular doubly-linked invariant in pointer form: the anchor is
non-null, the chain of `next` returns to the anchor, and every node `n`
reachable from the anchor is non-null with `n.next.prev = n` and
`n.prev.next = n`. -/
def CircularInv (m : Mem) (head : Nat) : Prop :=
  head ≠ 0 ∧ (∃ k : Nat, (m.next)^[k + 1] head = head) ∧
    ∀ n, Reach m head n → n ≠ 0 ∧ m.prev (m.next n) = n ∧ m.next (m.prev n) = n

instance Chain.instDecidable (m : Mem) : ∀ (p : Nat) (L : List Nat) (q : Nat), Decidable (Chain m p L q)
  | p, [], q => inferInstanceAs (Decidable (m.next p = q ∧ m.prev q = p))
  | p, e :: es, q =>
    have : Decidable (Chain m e es q) := Chain.instDecidable m e es q
    inferInstanceAs (Decidable (m.next p = e ∧ m.prev e = p ∧ Chain m e es q))

instance IsList.instDecidable (m : Mem) (head : Nat) (L : List Nat) : Decidable (IsList m head L) :=
  inferInstanceAs (Decidable (head ≠ 0 ∧ (∀ e ∈ L, e ≠ 0) ∧ (head :: L).Nodup ∧ Chain m head L head))

instance Owned.instDecidable (m : Mem) (head : Nat) (L : List Nat) : Decidable (Owned m head L) :=
  inferInstanceAs (Decidable ((head :: L ++ L.map m.value).Nodup ∧
    ∀ a ∈ head :: L ++ L.map m.value, a ≠ 0 ∧ m.live a = true))

instance WF.instDecidable (m : Mem) (head : Nat) (L : List Nat) : Decidable (WF m head L) :=
  inferInstanceAs (Decidable (IsList m head L ∧ Owned m head L))

instance Fresh.instDecidable (m : Mem) (r : Nat) : Decidable (Fresh m r) :=
  inferInstanceAs (Decidable (r ≠ 0 ∧ m.live r = false))

/-! ## List-level descriptions -/

/-- Pairwise exchange of a sequence: each adjacent pair `(1st, 2nd)`,
`(3rd, 4th)`, .. exchanges positions, an unpaired final element stays. -/
def swapPairs {α : Type} : List α → List α
  | a :: b :: t => b :: a :: swapPairs t
  | l => l

/-- Ascending byte-wise lexicographic order of two strings (`strcmp ≤ 0`). -/
def strLe : List Nat → List Nat → Bool
  | [], _ => true
  | _ :: _, [] => false
  | a :: s, b :: t => if a < b then true else if b < a then false else strLe s t

/-- A sequence of strings in ascending order. -/
def sortedAsc : List (List Nat) → Bool
  | a :: b :: t => strLe a b && sortedAsc (b :: t)
  | _ => true

/-- The elements of a sequence whose value occurs exactly once in it. -/
def uniqueOnly (l : List (List Nat)) : List (List Nat) :=
  l.filter (fun v => l.count v = 1)

/-! ## Runs of operations -/

/-- A call of one of the operations that change the number of elements, with
the results of the `malloc` calls it makes. -/
inductive Op where
  | insert_head (s : List Nat) (r1 r2 : Nat)
  | insert_tail (s : List Nat) (r1 r2 : Nat)
  | remove_head (sp bufsize : Nat)
  | remove_tail (sp bufsize : Nat)
  | delete_mid

/-- One successful call on the list `head`: `none` when the call is not
successful (an insertion returning `false`, a removal returning `NULL` or
nothing, a deletion returning `false` or nothing) or when a `malloc` result is not one
that `malloc` may return. -/
def step (fuel : Nat) (head : Nat) (m : Mem) : Op → Option Mem
  | Op.insert_head s r1 r2 =>
    if Fresh m r1 ∧ Fresh (malloc m r1) r2 ∧ (q_insert_head m head s r1 r2).1 = true
    then some (q_insert_head m head s r1 r2).2 else none
  | Op.insert_tail s r1 r2 =>
    if Fresh m r1 ∧ Fresh (malloc m r1) r2 ∧ (q_insert_tail m head s r1 r2).1 = true
    then some (q_insert_tail m head s r1 r2).2 else none
  | Op.remove_head sp bufsize =>
    match q_remove_head m head sp bufsize with
    | some (e, m1) => if e ≠ 0 then some m1 else none
    | none => none
  | Op.remove_tail sp bufsize =>
    match q_remove_tail m head sp bufsize with
    | some (e, m1) => if e ≠ 0 then some m1 else none
    | none => none
  | Op.delete_mid =>
    match q_delete_mid fuel m head with
    | some (true, m1) => some m1
    | _ => none

/-- A sequence of successful calls. -/
def run (fuel : Nat) (head : Nat) : Mem → List Op → Option Mem
  | m, [] => some m
  | m, op :: ops =>
    match step fuel head m op with
    | none => none
    | some m1 => run fuel head m1 ops

/-- The number of insertions in a sequence of calls. -/
def insertions : List Op → Nat
  | [] => 0
  | Op.insert_head _ _ _ :: ops => insertions ops + 1
  | Op.insert_tail _ _ _ :: ops => insertions ops + 1
  | _ :: ops => insertions ops

/-- The number of removals and deletions in a sequence of calls. -/
def removals : List Op → Nat
  | [] => 0
  | Op.remove_head _ _ :: ops => removals ops + 1
  | Op.remove_tail _ _ :: ops => removals ops + 1
  | Op.delete_mid :: ops => removals ops + 1
  | _ :: ops => removals ops

/-! ## Concrete memories -/

/-- A memory in which nothing is allocated. -/
def mem0 : Mem :=
  { next := fun _ => 0, prev := fun _ => 0, value := fun _ => 0,
    str := fun _ => [], buf := fun _ => 0, live := fun _ => false }

/-- The list built at anchor `1` by inserting the strings `ss` at the tail,
element `i` at address `2 * i + 2` with its buffer at `2 * i + 3`. -/
def buildFrom : Mem → Nat → List (List Nat) → Mem
  | m, _, [] => m
  | m, i, s :: ss => buildFrom (q_insert_tail m 1 s (2 * i + 2) (2 * i + 3)).2 (i + 1) ss

/-- The memory holding the list of the strings `ss` at anchor `1`. -/
def build (ss : List (List Nat)) : Mem := buildFrom (q_new mem0 1).2 0 ss

/-- The C string read at address `p` of the caller memory `buf`: the bytes
before the first zero byte.  At most `fuel` bytes are inspected. -/
def read_cstr (buf : Nat → Nat) : Nat → Nat → Option (List Nat)
  | 0, _ => none
  | fuel + 1, p =>
    if buf p = 0 then some []
    else
      match read_cstr buf fuel (p + 1) with
      | none => none
      | some t => some (buf p :: t)

end Queue

/-! # Proofs -/

namespace Queue

/-! ## Memory updates -/

@[simp] theorem upd_same {β : Type} (f : Nat → β) (a : Nat) (b : β) : upd f a b a = b := by
  simp [upd]

theorem upd_other {β : Type} (f : Nat → β) {a x : Nat} (b : β) (h : x ≠ a) :
    upd f a b x = f x := by
  simp [upd, h]

/-! ## Chains -/

theorem Chain.congr {m m1 : Mem} : ∀ {L : List Nat} {p q : Nat}, Chain m p L q →
    (∀ a ∈ p :: L, m1.next a = m.next a) → (∀ a ∈ L ++ [q], m1.prev a = m.prev a) →
    Chain m1 p L q
  | [], p, q, h, hn, hp => by
    obtain ⟨h1, h2⟩ := h
    exact ⟨by rw [hn p (by simp), h1], by rw [hp q (by simp), h2]⟩
  | e :: es, p, q, h, hn, hp => by
    obtain ⟨h1, h2, h3⟩ := h
    refine ⟨by rw [hn p (by simp), h1], by rw [hp e (by simp), h2], ?_⟩
    exact Chain.congr h3 (fun a ha => hn a (List.mem_cons_of_mem _ ha))
      (fun a ha => hp a (by simp at ha ⊢; tauto))

theorem chain_append {m : Mem} : ∀ {l1 : List Nat} {p x : Nat} {l2 : List Nat} {q : Nat},
    Chain m p (l1 ++ x :: l2) q ↔ Chain m p l1 x ∧ Chain m x l2 q
  | [], p, x, l2, q => by
    cases l2 <;> simp [Chain, and_assoc]
  | e :: es, p, x, l2, q => by
    show (m.next p = e ∧ m.prev e = p ∧ Chain m e (es ++ x :: l2) q) ↔
      (m.next p = e ∧ m.prev e = p ∧ Chain m e es x) ∧ Chain m x l2 q
    rw [@chain_append m es e x l2 q]
    simp [and_assoc]

theorem chain_flip {m : Mem} : ∀ {L : List Nat} {p q : Nat},
    Chain m p L q → Chain (flip m) q L.reverse p
  | [], p, q, h => by
    obtain ⟨h1, h2⟩ := h
    exact ⟨h2, h1⟩
  | e :: es, p, q, h => by
    obtain ⟨h1, h2, h3⟩ := h
    rw [List.reverse_cons, chain_append]
    exact ⟨chain_flip h3, h2, h1⟩

theorem Chain.prev_mem {m : Mem} : ∀ {l1 : List Nat} {p x : Nat} {l2 : List Nat} {q : Nat},
    Chain m p (l1 ++ x :: l2) q → m.prev x ∈ p :: l1
  | [], p, x, l2, q, h => by
    obtain ⟨_, h2, _⟩ := h
    simp [h2]
  | e :: es, p, x, l2, q, h => by
    obtain ⟨_, _, h3⟩ := h
    exact List.mem_cons_of_mem _ (Chain.prev_mem h3)

theorem Chain.next_mem {m : Mem} {l1 : List Nat} {p x : Nat} {l2 : List Nat} {q : Nat}
    (h : Chain m p (l1 ++ x :: l2) q) : m.next x ∈ l2 ++ [q] := by
  have h2 := (chain_append.1 h).2
  cases l2 with
  | nil => simp [h2.1]
  | cons b t => simp [h2.1]

theorem list_add_tail_eq_flip (m : Mem) (node head : Nat) :
    list_add_tail m node head = flip (list_add (flip m) node head) := rfl

theorem list_del_flip (m : Mem) (x : Nat) : list_del (flip m) x = flip (list_del m x) := rfl

theorem flip_flip (m : Mem) : flip (flip m) = m := rfl

theorem isList_flip {m : Mem} {head : Nat} {L : List Nat} (h : IsList m head L) :
    IsList (flip m) head L.reverse := by
  obtain ⟨h1, h2, h3, h4⟩ := h
  refine ⟨h1, ?_, ?_, chain_flip h4⟩
  · intro e he
    exact h2 e (List.mem_reverse.1 he)
  · simp only [List.nodup_cons, List.mem_reverse, List.nodup_reverse] at h3 ⊢
    exact h3

/-! ## The list primitives on chains -/

theorem list_del_next (m : Mem) (x a : Nat) :
    (list_del m x).next a = if a = m.prev x then m.next x else m.next a := by
  simp [list_del, setNext, setPrev, upd]

theorem list_del_prev (m : Mem) (x a : Nat) :
    (list_del m x).prev a = if a = m.next x then m.prev x else m.prev a := by
  simp [list_del, setNext, setPrev, upd]

theorem list_add_next (m : Mem) (n h a : Nat) :
    (list_add m n h).next a = if a = h then n else if a = n then m.next h else m.next a := by
  simp [list_add, setNext, setPrev, upd]

theorem list_add_prev (m : Mem) (n h a : Nat) :
    (list_add m n h).prev a = if a = n then h else if a = m.next h then n else m.prev a := by
  simp [list_add, setNext, setPrev, upd]

theorem chain_list_del {m : Mem} {x q : Nat} {l2 : List Nat} : ∀ (l1 : List Nat) (p : Nat),
    Chain m p (l1 ++ x :: l2) q → (p :: (l1 ++ x :: l2)).Nodup → q ∉ l1 ++ x :: l2 →
    Chain (list_del m x) p (l1 ++ l2) q
  | [], p, h, hnd, hq => by
    obtain ⟨h1, h2, h3⟩ := h
    simp only [List.nil_append, List.nodup_cons, List.mem_cons, not_or] at hnd hq
    cases l2 with
    | nil =>
      obtain ⟨h4, h5⟩ := h3
      refine ⟨?_, ?_⟩
      · rw [list_del_next]; simp [h2, h4]
      · rw [list_del_prev]; simp [h4, h2]
    | cons b t =>
      obtain ⟨h4, h5, h6⟩ := h3
      simp only [List.nodup_cons, List.mem_cons, not_or] at hnd hq
      refine ⟨?_, ?_, ?_⟩
      · rw [list_del_next]; simp [h2, h4]
      · rw [list_del_prev]; simp [h4, h2]
      · apply Chain.congr h6
        · intro a ha
          rw [list_del_next, h2, if_neg]
          rintro rfl
          simp only [List.mem_cons] at ha
          tauto
        · intro a ha
          rw [list_del_prev, h4, if_neg]
          rintro rfl
          simp only [List.mem_append, List.mem_singleton] at ha
          rcases ha with ha | ha
          · tauto
          · exact hq.2.1 ha.symm
  | c :: l1, p, h, hnd, hq => by
    obtain ⟨h1, h2, h3⟩ := h
    have hnd2 : (c :: (l1 ++ x :: l2)).Nodup := (List.nodup_cons.1 hnd).2
    have hq2 : q ∉ l1 ++ x :: l2 := fun hm => hq (List.mem_cons_of_mem _ hm)
    have ih := chain_list_del l1 c h3 hnd2 hq2
    refine ⟨?_, ?_, ih⟩
    · rw [list_del_next, if_neg, h1]
      intro hp
      have hm := Chain.prev_mem h3
      rw [← hp] at hm
      have := (List.nodup_cons.1 hnd).1
      simp only [List.cons_append, List.mem_cons, List.mem_append, not_or] at this hm
      tauto
    · rw [list_del_prev, if_neg, h2]
      intro hc
      have hm := Chain.next_mem h3
      rw [← hc] at hm
      have h5 := (List.nodup_cons.1 hnd2).1
      simp only [List.mem_append, List.mem_singleton] at hm
      simp only [List.cons_append, List.mem_cons, List.mem_append, not_or] at h5 hq
      rcases hm with hm | hm
      · exact h5.2.2 hm
      · exact hq.1 hm.symm

theorem isList_list_del {m : Mem} {head x : Nat} {l1 l2 : List Nat}
    (h : IsList m head (l1 ++ x :: l2)) : IsList (list_del m x) head (l1 ++ l2) := by
  obtain ⟨h1, h2, h3, h4⟩ := h
  refine ⟨h1, ?_, ?_, chain_list_del l1 head h4 h3 (List.nodup_cons.1 h3).1⟩
  · intro e he
    apply h2
    simp only [List.mem_append, List.mem_cons] at he ⊢
    tauto
  · have : (l1 ++ l2).Sublist (l1 ++ x :: l2) :=
      List.Sublist.append_left (List.sublist_cons_self x l2) l1
    exact h3.sublist (this.cons₂ head)

theorem isList_list_add {m : Mem} {head node : Nat} {L : List Nat} (h : IsList m head L)
    (hn : node ≠ 0) (hfresh : node ∉ head :: L) : IsList (list_add m node head) head (node :: L) := by
  obtain ⟨h1, h2, h3, h4⟩ := h
  have hnh : node ≠ head := fun e => hfresh (e ▸ List.mem_cons_self _ _)
  have hnL : node ∉ L := fun e => hfresh (List.mem_cons_of_mem _ e)
  refine ⟨h1, ?_, ?_, ?_⟩
  · intro e he
    rcases List.mem_cons.1 he with rfl | he
    · exact hn
    · exact h2 e he
  · exact List.nodup_cons.2 ⟨by
      simp only [List.mem_cons, not_or]
      exact ⟨hnh.symm, (List.nodup_cons.1 h3).1⟩, List.nodup_cons.2 ⟨hnL, (List.nodup_cons.1 h3).2⟩⟩
  · have hhL : head ∉ L := (List.nodup_cons.1 h3).1
    cases L with
    | nil =>
      obtain ⟨h5, h6⟩ := h4
      refine ⟨?_, ?_, ?_, ?_⟩
      · rw [list_add_next]; simp
      · rw [list_add_prev]; simp
      · rw [list_add_next]; simp [hnh, h5]
      · rw [list_add_prev]; simp [hnh.symm, h5]
    | cons e es =>
      obtain ⟨h5, h6, h7⟩ := h4
      have hne : node ≠ e := fun h => hnL (h ▸ List.mem_cons_self _ _)
      have hhe : head ≠ e := fun h => hhL (h ▸ List.mem_cons_self _ _)
      have hnd := (List.nodup_cons.1 (List.nodup_cons.1 h3).2)
      refine ⟨?_, ?_, ?_, ?_, ?_⟩
      · rw [list_add_next]; simp
      · rw [list_add_prev]; simp
      · rw [list_add_next]; simp [hnh, h5]
      · rw [list_add_prev]; simp [hne.symm, h5]
      · apply Chain.congr h7
        · intro a ha
          rw [list_add_next, if_neg, if_neg]
          · rintro rfl; exact hnL ha
          · rintro rfl; exact hhL ha
        · intro a ha
          rw [list_add_prev, if_neg, if_neg]
          · rw [h5]
            rintro rfl
            simp only [List.mem_append, List.mem_singleton] at ha
            rcases ha with ha | ha
            · exact hnd.1 ha
            · exact hhe ha.symm
          · rintro rfl
            simp only [List.mem_append, List.mem_singleton] at ha
            rcases ha with ha | ha
            · exact hnL (List.mem_cons_of_mem _ ha)
            · exact hnh ha

theorem isList_of_flip {m : Mem} {head : Nat} {L : List Nat} (h : IsList (flip m) head L.reverse) :
    IsList m head L := by
  have := isList_flip h
  rwa [flip_flip, List.reverse_reverse] at this

theorem isList_list_add_tail {m : Mem} {head node : Nat} {L : List Nat} (h : IsList m head L)
    (hn : node ≠ 0) (hfresh : node ∉ head :: L) :
    IsList (list_add_tail m node head) head (L ++ [node]) := by
  rw [list_add_tail_eq_flip]
  apply isList_of_flip
  rw [flip_flip, List.reverse_append]
  apply isList_list_add (isList_flip h) hn
  simpa using hfresh

theorem isList_list_move {m : Mem} {head x : Nat} {l1 l2 : List Nat}
    (h : IsList m head (l1 ++ x :: l2)) : IsList (list_move m x head) head (x :: (l1 ++ l2)) := by
  have hx : x ≠ 0 := h.2.1 x (by simp)
  have hnd := h.2.2.1
  apply isList_list_add (isList_list_del h) hx
  simp only [List.nodup_cons, List.mem_append, List.mem_cons, not_or] at hnd ⊢
  have h2 := List.nodup_append.1 hnd.2
  have h3 := List.nodup_cons.1 h2.2.1
  have h4 := h2.2.2
  refine ⟨fun e => hnd.1.2.1 e.symm, ?_, h3.1⟩
  intro hm
  exact h4 hm (List.mem_cons_self _ _)


/-! ## Ownership -/

theorem owned_cons_perm (m : Mem) (head x : Nat) (L : List Nat) :
    (head :: (x :: L) ++ (x :: L).map m.value).Perm
      (x :: m.value x :: (head :: L ++ L.map m.value)) := by
  simp only [List.map_cons, List.cons_append]
  refine (List.Perm.swap x head _).trans (List.Perm.cons x ?_)
  exact (List.Perm.cons head List.perm_middle).trans (List.Perm.swap _ _ _)

theorem owned_cons {m : Mem} {head x : Nat} {L : List Nat} :
    Owned m head (x :: L) ↔ Owned m head L ∧ x ∉ head :: L ++ L.map m.value ∧
      m.value x ∉ head :: L ++ L.map m.value ∧ x ≠ m.value x ∧
      (x ≠ 0 ∧ m.live x = true) ∧ (m.value x ≠ 0 ∧ m.live (m.value x) = true) := by
  have hp := owned_cons_perm m head x L
  unfold Owned
  rw [hp.nodup_iff]
  have hall : ∀ P : Nat → Prop, (∀ a ∈ head :: (x :: L) ++ (x :: L).map m.value, P a) ↔
      ∀ a ∈ x :: m.value x :: (head :: L ++ L.map m.value), P a :=
    fun P => ⟨fun h a ha => h a (hp.mem_iff.2 ha), fun h a ha => h a (hp.mem_iff.1 ha)⟩
  rw [hall]
  simp only [List.nodup_cons, List.forall_mem_cons, List.mem_cons (a := x) (b := m.value x),
    not_or]
  tauto

theorem owned_perm {m : Mem} {head : Nat} {L L1 : List Nat} (hp : L.Perm L1)
    (h : Owned m head L) : Owned m head L1 := by
  have hp2 : (head :: L ++ L.map m.value).Perm (head :: L1 ++ L1.map m.value) :=
    List.Perm.append (List.Perm.cons head hp) (hp.map m.value)
  exact ⟨hp2.nodup_iff.1 h.1, fun a ha => h.2 a (hp2.mem_iff.2 ha)⟩

theorem owned_congr {m m1 : Mem} {head : Nat} {L : List Nat} (hv : ∀ e ∈ L, m1.value e = m.value e)
    (hl : ∀ a ∈ head :: L ++ L.map m.value, m1.live a = m.live a) (h : Owned m head L) :
    Owned m1 head L := by
  have hmap : L.map m1.value = L.map m.value := List.map_congr_left hv
  unfold Owned
  rw [hmap]
  exact ⟨h.1, fun a ha => ⟨(h.2 a ha).1, by rw [hl a ha]; exact (h.2 a ha).2⟩⟩

theorem owned_remove {m : Mem} {head x : Nat} {l1 l2 : List Nat}
    (h : Owned m head (l1 ++ x :: l2)) : Owned m head (l1 ++ l2) :=
  (owned_cons.1 (owned_perm List.perm_middle h)).1

theorem vals_congr {m m1 : Mem} {L : List Nat}
    (h : ∀ e ∈ L, m1.str (m1.value e) = m.str (m.value e)) : vals m1 L = vals m L :=
  List.map_congr_left h

theorem isList_congr {m m1 : Mem} {head : Nat} {L : List Nat} (hn : m1.next = m.next)
    (hp : m1.prev = m.prev) (h : IsList m head L) : IsList m1 head L :=
  ⟨h.1, h.2.1, h.2.2.1, Chain.congr h.2.2.2 (fun a _ => by rw [hn]) (fun a _ => by rw [hp])⟩


/-! ## Insertion -/

theorem q_insert_head_eq (m : Mem) (head : Nat) (s : List Nat) (r1 r2 : Nat) (hh : head ≠ 0)
    (h1 : r1 ≠ 0) (h2 : r2 ≠ 0) :
    q_insert_head m head s r1 r2 =
      (true, list_add (setStr (setValue (malloc (malloc m r1) r2) r1 r2) r2 s) r1 head) := by
  simp [q_insert_head, hh, h1, h2, setValue, strlen]

theorem q_insert_tail_eq (m : Mem) (head : Nat) (s : List Nat) (r1 r2 : Nat) (hh : head ≠ 0)
    (h1 : r1 ≠ 0) (h2 : r2 ≠ 0) :
    q_insert_tail m head s r1 r2 =
      (true, list_add_tail (setStr (setValue (malloc (malloc m r1) r2) r1 r2) r2 s) r1 head) := by
  simp [q_insert_tail, hh, h1, h2, setValue, strlen]

theorem fresh_second {m : Mem} {r1 r2 : Nat} (h1 : r1 ≠ 0) (h2 : Fresh (malloc m r1) r2) :
    r2 ≠ 0 ∧ r2 ≠ r1 ∧ m.live r2 = false := by
  obtain ⟨h3, h4⟩ := h2
  simp only [malloc, h1, if_false] at h4
  by_cases h : r2 = r1
  · subst h
    simp at h4
  · rw [upd_other _ _ h] at h4
    exact ⟨h3, h, h4⟩

theorem wf_alloc {m : Mem} {head : Nat} {L : List Nat} (s : List Nat) {r1 r2 : Nat}
    (h : WF m head L) (h1 : Fresh m r1) (h2 : Fresh (malloc m r1) r2) :
    IsList (setStr (setValue (malloc (malloc m r1) r2) r1 r2) r2 s) head L ∧
      r1 ∉ head :: L ∧
      Owned (setStr (setValue (malloc (malloc m r1) r2) r1 r2) r2 s) head (r1 :: L) ∧
      vals (setStr (setValue (malloc (malloc m r1) r2) r1 r2) r2 s) L = vals m L ∧
      (setStr (setValue (malloc (malloc m r1) r2) r1 r2) r2 s).str
        ((setStr (setValue (malloc (malloc m r1) r2) r1 r2) r2 s).value r1) = s := by
  obtain ⟨hl, ho⟩ := h
  obtain ⟨h3, h4, h5⟩ := fresh_second h1.1 h2
  have hlive : ∀ a ∈ head :: L ++ L.map m.value, a ≠ r1 ∧ a ≠ r2 := by
    intro a ha
    have := (ho.2 a ha).2
    constructor
    · rintro rfl
      rw [h1.2] at this
      cases this
    · rintro rfl
      rw [h5] at this
      cases this
  have hr1 : r1 ∉ head :: L ++ L.map m.value := fun hm => (hlive r1 hm).1 rfl
  have hr2 : r2 ∉ head :: L ++ L.map m.value := fun hm => (hlive r2 hm).2 rfl
  have hval : ∀ e ∈ L, (setStr (setValue (malloc (malloc m r1) r2) r1 r2) r2 s).value e
      = m.value e := by
    intro e he
    have : e ≠ r1 := (hlive e (by simp [he])).1
    simp [malloc, h1.1, h3, setValue, setStr, upd, this]
  refine ⟨isList_congr ?_ ?_ hl, fun hm => hr1 (by simp at hm ⊢; tauto), ?_, ?_, ?_⟩
  · simp [malloc, h1.1, h3, setValue, setStr]
  · simp [malloc, h1.1, h3, setValue, setStr]
  · rw [owned_cons]
    have hv1 : (setStr (setValue (malloc (malloc m r1) r2) r1 r2) r2 s).value r1 = r2 := by
      simp [malloc, h1.1, h3, setValue, setStr]
    have hmap : L.map (setStr (setValue (malloc (malloc m r1) r2) r1 r2) r2 s).value
        = L.map m.value := List.map_congr_left hval
    rw [hv1, hmap]
    refine ⟨owned_congr hval ?_ ho, hr1, hr2, h4.symm, ⟨h1.1, ?_⟩, ⟨h3, ?_⟩⟩
    · intro a ha
      obtain ⟨ha1, ha2⟩ := hlive a ha
      simp [malloc, h1.1, h3, setValue, setStr, upd, ha1, ha2]
    · simp [malloc, h1.1, h3, setValue, setStr, upd]
    · simp [malloc, h1.1, h3, setValue, setStr, upd]
  · apply vals_congr
    intro e he
    rw [hval e he]
    have : m.value e ≠ r2 := (hlive (m.value e) (by simp; right; right; exact ⟨e, he, rfl⟩)).2
    simp [malloc, h1.1, h3, setValue, setStr, upd, this]
  · simp [malloc, h1.1, h3, setValue, setStr, upd]

theorem wf_list_add {m : Mem} {head node : Nat} {L : List Nat} (h : IsList m head L)
    (hf : node ∉ head :: L) (ho : Owned m head (node :: L)) :
    WF (list_add m node head) head (node :: L) :=
  ⟨isList_list_add h (owned_cons.1 ho).2.2.2.2.1.1 hf,
    owned_congr (fun _ _ => rfl) (fun _ _ => rfl) ho⟩

theorem wf_list_add_tail {m : Mem} {head node : Nat} {L : List Nat} (h : IsList m head L)
    (hf : node ∉ head :: L) (ho : Owned m head (node :: L)) :
    WF (list_add_tail m node head) head (L ++ [node]) :=
  ⟨isList_list_add_tail h (owned_cons.1 ho).2.2.2.2.1.1 hf,
    owned_congr (fun _ _ => rfl) (fun _ _ => rfl)
      (owned_perm (List.perm_append_singleton node L).symm ho)⟩

theorem q_insert_head_wf {m : Mem} {head : Nat} {L : List Nat} (s : List Nat) {r1 r2 : Nat}
    (h : WF m head L) (h1 : Fresh m r1) (h2 : Fresh (malloc m r1) r2) :
    (q_insert_head m head s r1 r2).1 = true ∧
      WF (q_insert_head m head s r1 r2).2 head (r1 :: L) ∧
      vals (q_insert_head m head s r1 r2).2 (r1 :: L) = s :: vals m L := by
  obtain ⟨a1, a2, a3, a4, a5⟩ := wf_alloc s h h1 h2
  rw [q_insert_head_eq m head s r1 r2 h.1.1 h1.1 h2.1]
  refine ⟨rfl, wf_list_add a1 a2 a3, ?_⟩
  show vals (setStr (setValue (malloc (malloc m r1) r2) r1 r2) r2 s) (r1 :: L) = s :: vals m L
  rw [← a4]
  simp only [vals, List.map_cons, a5]

theorem q_insert_tail_wf {m : Mem} {head : Nat} {L : List Nat} (s : List Nat) {r1 r2 : Nat}
    (h : WF m head L) (h1 : Fresh m r1) (h2 : Fresh (malloc m r1) r2) :
    (q_insert_tail m head s r1 r2).1 = true ∧
      WF (q_insert_tail m head s r1 r2).2 head (L ++ [r1]) ∧
      vals (q_insert_tail m head s r1 r2).2 (L ++ [r1]) = vals m L ++ [s] := by
  obtain ⟨a1, a2, a3, a4, a5⟩ := wf_alloc s h h1 h2
  rw [q_insert_tail_eq m head s r1 r2 h.1.1 h1.1 h2.1]
  refine ⟨rfl, wf_list_add_tail a1 a2 a3, ?_⟩
  show vals (setStr (setValue (malloc (malloc m r1) r2) r1 r2) r2 s) (L ++ [r1]) = vals m L ++ [s]
  rw [← a4]
  simp only [vals, List.map_append, List.map_cons, List.map_nil, a5]


/-! ## Removal -/

theorem isList_nil_iff {m : Mem} {head : Nat} {L : List Nat} (h : IsList m head L) :
    m.next head = head ↔ L = [] := by
  obtain ⟨_, _, h3, h4⟩ := h
  cases L with
  | nil => simpa using h4.1
  | cons e es =>
    have : head ≠ e := by
      intro he
      simp [he] at h3
    simp only [reduceCtorEq, iff_false]
    rw [h4.1]
    exact fun h => this h.symm

theorem isList_prev_head {m : Mem} {head e : Nat} {L : List Nat} (h : IsList m head (L ++ [e])) :
    m.prev head = e :=
  (chain_append.1 h.2.2.2).2.2

theorem q_remove_head_absent (m : Mem) (head sp bufsize : Nat) (L : List Nat)
    (h : head = 0 ∨ IsList m head L ∧ L = []) :
    q_remove_head m head sp bufsize = some (0, m) := by
  rcases h with h | ⟨h, rfl⟩
  · simp [q_remove_head, h]
  · simp [q_remove_head, list_empty, (isList_nil_iff h).2 rfl]

theorem q_remove_tail_absent (m : Mem) (head sp bufsize : Nat) (L : List Nat)
    (h : head = 0 ∨ IsList m head L ∧ L = []) :
    q_remove_tail m head sp bufsize = some (0, m) := by
  rcases h with h | ⟨h, rfl⟩
  · simp [q_remove_tail, h]
  · simp [q_remove_tail, list_empty, (isList_nil_iff h).2 rfl]

theorem copy_defined {sp bufsize : Nat} (hb : sp = 0 ∨ 1 ≤ bufsize ∧ bufsize < SIZE_MOD) :
    ¬ (sp ≠ 0 ∧ (bufsize + (SIZE_MOD - 1)) % SIZE_MOD = SIZE_MOD - 1) := by
  rintro ⟨h1, h2⟩
  rcases hb with hb | ⟨hb1, hb2⟩
  · exact h1 hb
  · unfold SIZE_MOD at *
    omega

theorem q_remove_head_cases {m : Mem} {head e : Nat} {L : List Nat} (sp bufsize : Nat)
    (h : IsList m head (e :: L)) :
    q_remove_head m head sp bufsize =
      if sp ≠ 0 ∧ (bufsize + (SIZE_MOD - 1)) % SIZE_MOD = SIZE_MOD - 1 then none
      else some
        (e, list_del (if sp ≠ 0 then copy_out m sp (m.str (m.value e)) bufsize else m) e) := by
  have hne : ¬ m.next head = head := fun hh => by simpa using (isList_nil_iff h).1 hh
  have hfirst : m.next head = e := h.2.2.2.1
  rw [hfirst] at hne
  simp only [q_remove_head, list_empty, h.1, hne, hfirst, decide_False, false_or,
    Bool.false_eq_true, if_false]

theorem q_remove_tail_cases {m : Mem} {head e : Nat} {L : List Nat} (sp bufsize : Nat)
    (h : IsList m head (L ++ [e])) :
    q_remove_tail m head sp bufsize =
      if sp ≠ 0 ∧ (bufsize + (SIZE_MOD - 1)) % SIZE_MOD = SIZE_MOD - 1 then none
      else some
        (e, list_del (if sp ≠ 0 then copy_out m sp (m.str (m.value e)) bufsize else m) e) := by
  have hne : ¬ m.next head = head := fun hh => by simpa using (isList_nil_iff h).1 hh
  have hlast : m.prev head = e := isList_prev_head h
  simp only [q_remove_tail, list_empty, h.1, hne, hlast, decide_False, false_or,
    Bool.false_eq_true, if_false]

theorem q_remove_head_eq {m : Mem} {head e : Nat} {L : List Nat} (sp bufsize : Nat)
    (h : IsList m head (e :: L)) (hb : sp = 0 ∨ 1 ≤ bufsize ∧ bufsize < SIZE_MOD) :
    q_remove_head m head sp bufsize = some
      (e, list_del (if sp ≠ 0 then copy_out m sp (m.str (m.value e)) bufsize else m) e) := by
  rw [q_remove_head_cases sp bufsize h, if_neg (copy_defined hb)]

theorem q_remove_tail_eq {m : Mem} {head e : Nat} {L : List Nat} (sp bufsize : Nat)
    (h : IsList m head (L ++ [e])) (hb : sp = 0 ∨ 1 ≤ bufsize ∧ bufsize < SIZE_MOD) :
    q_remove_tail m head sp bufsize = some
      (e, list_del (if sp ≠ 0 then copy_out m sp (m.str (m.value e)) bufsize else m) e) := by
  rw [q_remove_tail_cases sp bufsize h, if_neg (copy_defined hb)]

theorem q_remove_head_some {m : Mem} {head e : Nat} {L : List Nat} {sp bufsize : Nat}
    (h : IsList m head (e :: L)) {r : Nat × Mem}
    (hs : q_remove_head m head sp bufsize = some r) :
    r = (e, list_del (if sp ≠ 0 then copy_out m sp (m.str (m.value e)) bufsize else m) e) := by
  rw [q_remove_head_cases sp bufsize h] at hs
  by_cases hc : sp ≠ 0 ∧ (bufsize + (SIZE_MOD - 1)) % SIZE_MOD = SIZE_MOD - 1
  · rw [if_pos hc] at hs
    cases hs
  · rw [if_neg hc] at hs
    exact (Option.some.inj hs).symm

theorem q_remove_tail_some {m : Mem} {head e : Nat} {L : List Nat} {sp bufsize : Nat}
    (h : IsList m head (L ++ [e])) {r : Nat × Mem}
    (hs : q_remove_tail m head sp bufsize = some r) :
    r = (e, list_del (if sp ≠ 0 then copy_out m sp (m.str (m.value e)) bufsize else m) e) := by
  rw [q_remove_tail_cases sp bufsize h] at hs
  by_cases hc : sp ≠ 0 ∧ (bufsize + (SIZE_MOD - 1)) % SIZE_MOD = SIZE_MOD - 1
  · rw [if_pos hc] at hs
    cases hs
  · rw [if_neg hc] at hs
    exact (Option.some.inj hs).symm

theorem copy_fields (m : Mem) (sp bufsize : Nat) (v : List Nat) :
    (if sp ≠ 0 then copy_out m sp v bufsize else m).next = m.next ∧
    (if sp ≠ 0 then copy_out m sp v bufsize else m).prev = m.prev ∧
    (if sp ≠ 0 then copy_out m sp v bufsize else m).value = m.value ∧
    (if sp ≠ 0 then copy_out m sp v bufsize else m).str = m.str ∧
    (if sp ≠ 0 then copy_out m sp v bufsize else m).live = m.live := by
  split_ifs <;> exact ⟨rfl, rfl, rfl, rfl, rfl⟩

theorem wf_unlink {m : Mem} {head x : Nat} {l1 l2 : List Nat} (sp bufsize : Nat) (v : List Nat)
    (h : WF m head (l1 ++ x :: l2)) :
    WF (list_del (if sp ≠ 0 then copy_out m sp v bufsize else m) x) head (l1 ++ l2) ∧
    (list_del (if sp ≠ 0 then copy_out m sp v bufsize else m) x).value = m.value ∧
    (list_del (if sp ≠ 0 then copy_out m sp v bufsize else m) x).str = m.str ∧
    (list_del (if sp ≠ 0 then copy_out m sp v bufsize else m) x).live = m.live := by
  obtain ⟨c1, c2, c3, c4, c5⟩ := copy_fields m sp bufsize v
  refine ⟨⟨isList_list_del (isList_congr c1 c2 h.1), ?_⟩, c3, c4, c5⟩
  refine owned_congr (fun e _ => ?_) (fun a _ => ?_) (owned_remove h.2)
  · show (if sp ≠ 0 then copy_out m sp v bufsize else m).value e = m.value e
    rw [c3]
  · show (if sp ≠ 0 then copy_out m sp v bufsize else m).live a = m.live a
    rw [c5]

theorem vals_of_fields {m m1 : Mem} (hv : m1.value = m.value) (hs : m1.str = m.str)
    (L : List Nat) : vals m1 L = vals m L := by
  unfold vals
  rw [hv, hs]

theorem q_remove_head_wf {m : Mem} {head e : Nat} {L : List Nat} (sp bufsize : Nat)
    (h : WF m head (e :: L)) (hb : sp = 0 ∨ 1 ≤ bufsize ∧ bufsize < SIZE_MOD) :
    ∃ m1, q_remove_head m head sp bufsize = some (e, m1) ∧ WF m1 head L ∧
      m1.value = m.value ∧ m1.str = m.str ∧ m1.live = m.live :=
  ⟨_, q_remove_head_eq sp bufsize h.1 hb, @wf_unlink m head e [] L sp bufsize _ h⟩

theorem q_remove_tail_wf {m : Mem} {head e : Nat} {L : List Nat} (sp bufsize : Nat)
    (h : WF m head (L ++ [e])) (hb : sp = 0 ∨ 1 ≤ bufsize ∧ bufsize < SIZE_MOD) :
    ∃ m1, q_remove_tail m head sp bufsize = some (e, m1) ∧ WF m1 head L ∧
      m1.value = m.value ∧ m1.str = m.str ∧ m1.live = m.live := by
  have := @wf_unlink m head e L [] sp bufsize (m.str (m.value e)) h
  rw [List.append_nil] at this
  exact ⟨_, q_remove_tail_eq sp bufsize h.1 hb, this⟩

theorem q_remove_head_some_wf {m : Mem} {head e : Nat} {L : List Nat} {sp bufsize : Nat}
    (h : WF m head (e :: L)) {r : Nat × Mem}
    (hs : q_remove_head m head sp bufsize = some r) : r.1 = e ∧ WF r.2 head L := by
  rw [q_remove_head_some h.1 hs]
  exact ⟨rfl, (@wf_unlink m head e [] L sp bufsize _ h).1⟩

theorem q_remove_tail_some_wf {m : Mem} {head e : Nat} {L : List Nat} {sp bufsize : Nat}
    (h : WF m head (L ++ [e])) {r : Nat × Mem}
    (hs : q_remove_tail m head sp bufsize = some r) : r.1 = e ∧ WF r.2 head L := by
  rw [q_remove_tail_some h.1 hs]
  have := @wf_unlink m head e L [] sp bufsize (m.str (m.value e)) h
  rw [List.append_nil] at this
  exact ⟨rfl, this.1⟩

theorem owned_live {m : Mem} {head : Nat} {L : List Nat} (h : Owned m head L) {e : Nat}
    (he : e ∈ L) : e ≠ 0 ∧ m.live e = true ∧ m.value e ≠ 0 ∧ m.live (m.value e) = true := by
  have h1 := h.2 e (by simp [he])
  have h2 := h.2 (m.value e) (by simp; right; right; exact ⟨e, he, rfl⟩)
  exact ⟨h1.1, h1.2, h2.1, h2.2⟩


/-! ## Size -/

theorem q_size_loop_chain {m : Mem} {head : Nat} : ∀ (L : List Nat) (p len fuel : Nat),
    Chain m p L head → head ∉ L → L.length < fuel → len + L.length ≤ INT_MAX →
    q_size_loop fuel m head (m.next p) len = some (len + L.length)
  | [], p, len, fuel, h, _, hf, _ => by
    obtain ⟨f, rfl⟩ : ∃ f, fuel = f + 1 := ⟨fuel - 1, by simp at hf; omega⟩
    simp [q_size_loop, h.1]
  | e :: es, p, len, fuel, h, hh, hf, hlen => by
    obtain ⟨f, rfl⟩ : ∃ f, fuel = f + 1 := ⟨fuel - 1, by simp at hf; omega⟩
    obtain ⟨h1, _, h3⟩ := h
    simp only [List.mem_cons, not_or] at hh
    simp only [List.length_cons] at hf hlen
    have hne : e ≠ head := fun h => hh.1 h.symm
    have hlm : len ≠ INT_MAX := by omega
    rw [h1]
    simp only [q_size_loop, hne, hlm, if_false]
    rw [q_size_loop_chain es e (len + 1) f h3 hh.2 (by omega) (by omega)]
    simp only [List.length_cons]
    congr 1
    omega

theorem q_size_isList {m : Mem} {head : Nat} {L : List Nat} (h : IsList m head L)
    (hlen : L.length ≤ INT_MAX) {fuel : Nat} (hf : L.length < fuel) :
    q_size fuel m head = some L.length := by
  have := q_size_loop_chain L head 0 fuel h.2.2.2 (List.nodup_cons.1 h.2.2.1).1 hf (by omega)
  simp only [q_size, h.1, if_false, this, Nat.zero_add]

/-! ## Reversal -/

theorem node_np_swap_next (m : Mem) (x a : Nat) :
    (node_np_swap m x).next a = if a = x then m.prev a else m.next a := by
  by_cases h : a = x
  · subst h; simp [node_np_swap, setNext, setPrev]
  · simp [node_np_swap, setNext, setPrev, upd, h]

theorem node_np_swap_prev (m : Mem) (x a : Nat) :
    (node_np_swap m x).prev a = if a = x then m.next a else m.prev a := by
  by_cases h : a = x
  · subst h; simp [node_np_swap, setNext, setPrev]
  · simp [node_np_swap, setNext, setPrev, upd, h]

theorem foldl_np_swap : ∀ (S : List Nat) (m : Mem), S.Nodup →
    (∀ a, (S.foldl node_np_swap m).next a = if a ∈ S then m.prev a else m.next a) ∧
    (∀ a, (S.foldl node_np_swap m).prev a = if a ∈ S then m.next a else m.prev a) ∧
    (S.foldl node_np_swap m).value = m.value ∧ (S.foldl node_np_swap m).str = m.str ∧
    (S.foldl node_np_swap m).live = m.live ∧ (S.foldl node_np_swap m).buf = m.buf
  | [], m, _ => by simp
  | x :: S, m, hnd => by
    obtain ⟨hx, hS⟩ := List.nodup_cons.1 hnd
    obtain ⟨i1, i2, i3, i4, i5, i6⟩ := foldl_np_swap S (node_np_swap m x) hS
    simp only [List.foldl_cons]
    refine ⟨fun a => ?_, fun a => ?_, i3, i4, i5, i6⟩
    · rw [i1, node_np_swap_next, node_np_swap_prev]
      by_cases ha : a ∈ S
      · have : a ≠ x := fun h => hx (h ▸ ha)
        simp [ha, this]
      · by_cases hax : a = x
        · simp [hax, hx]
        · simp [ha, hax]
    · rw [i2, node_np_swap_next, node_np_swap_prev]
      by_cases ha : a ∈ S
      · have : a ≠ x := fun h => hx (h ▸ ha)
        simp [ha, this]
      · by_cases hax : a = x
        · simp [hax, hx]
        · simp [ha, hax]

theorem q_reverse_loop_chain {head : Nat} : ∀ (l : List Nat) (m : Mem) (x fuel : Nat),
    Chain m x l head → (x :: l).Nodup → head ∉ x :: l → l.length + 1 < fuel →
    q_reverse_loop fuel m head x (m.next x) = some ((x :: l).foldl node_np_swap m)
  | [], m, x, fuel, h, _, hh, hf => by
    obtain ⟨f, rfl⟩ : ∃ f, fuel = f + 2 := ⟨fuel - 2, by simp at hf; omega⟩
    have hx : x ≠ head := fun e => hh (by simp [e])
    simp [q_reverse_loop, hx, h.1]
  | y :: l, m, x, fuel, h, hnd, hh, hf => by
    obtain ⟨f, rfl⟩ : ∃ f, fuel = f + 1 := ⟨fuel - 1, by simp at hf; omega⟩
    obtain ⟨h1, _, h3⟩ := h
    have hx : x ≠ head := fun e => hh (by simp [e])
    obtain ⟨hxl, hnd2⟩ := List.nodup_cons.1 hnd
    have hyx : y ≠ x := fun e => hxl (by simp [e])
    have hc : Chain (node_np_swap m x) y l head := by
      apply Chain.congr h3
      · intro a ha
        rw [node_np_swap_next, if_neg]
        rintro rfl
        exact hxl ha
      · intro a ha
        rw [node_np_swap_prev, if_neg]
        rintro rfl
        simp only [List.mem_append, List.mem_singleton] at ha
        rcases ha with ha | ha
        · exact hxl (List.mem_cons_of_mem _ ha)
        · exact hx ha
    have ih := q_reverse_loop_chain l (node_np_swap m x) y f hc hnd2
      (fun hm => hh (List.mem_cons_of_mem _ hm)) (by simp at hf ⊢; omega)
    rw [node_np_swap_next, if_neg hyx] at ih
    simp only [q_reverse_loop, hx, if_false, h1, node_np_swap_next, if_neg hyx]
    rw [ih]
    rfl

theorem q_reverse_isList {m : Mem} {head : Nat} {L : List Nat} (h : IsList m head L)
    {fuel : Nat} (hf : L.length < fuel) :
    ∃ m1, q_reverse fuel m head = some m1 ∧ IsList m1 head L.reverse ∧
      (∀ a, m1.next a = if a ∈ head :: L then m.prev a else m.next a) ∧
      (∀ a, m1.prev a = if a ∈ head :: L then m.next a else m.prev a) ∧
      m1.value = m.value ∧ m1.str = m.str ∧ m1.live = m.live ∧ m1.buf = m.buf := by
  cases L with
  | nil =>
    have he : m.next head = head := (isList_nil_iff h).2 rfl
    have hp : m.prev head = head := h.2.2.2.2
    refine ⟨m, by simp [q_reverse, list_empty, he], h, ?_, ?_, rfl, rfl, rfl, rfl⟩
    · intro a
      by_cases ha : a = head
      · simp [ha, he, hp]
      · simp [ha]
    · intro a
      by_cases ha : a = head
      · simp [ha, he, hp]
      · simp [ha]
  | cons x l =>
    have hne : ¬ m.next head = head := fun hh => by simpa using (isList_nil_iff h).1 hh
    obtain ⟨h1, h2, h3, h4⟩ := h
    obtain ⟨hx, _, hc⟩ := h4
    obtain ⟨hhl, hnd⟩ := List.nodup_cons.1 h3
    have hloop := q_reverse_loop_chain l m x fuel hc hnd hhl (by simpa using hf)
    have hnd2 : ((x :: l) ++ [head]).Nodup := by
      rw [List.nodup_append_comm]
      exact h3
    obtain ⟨i1, i2, i3, i4, i5, i6⟩ := foldl_np_swap ((x :: l) ++ [head]) m hnd2
    have hmem : ∀ a, a ∈ (x :: l) ++ [head] ↔ a ∈ head :: x :: l := by
      intro a
      simp only [List.mem_append, List.mem_cons, List.mem_singleton]
      tauto
    refine ⟨((x :: l) ++ [head]).foldl node_np_swap m, ?_, ?_, ?_, ?_, i3, i4, i5, i6⟩
    · have hxh : x ≠ head := fun e => hhl (by simp [e])
      rw [hx] at hne
      simp [q_reverse, h1, list_empty, hne, hx, hloop, List.foldl_append]
    · refine ⟨h1, fun e he => h2 e (List.mem_reverse.1 he), ?_, ?_⟩
      · simp only [List.nodup_cons, List.mem_reverse, List.nodup_reverse] at h3 ⊢
        exact h3
      · have hcf : Chain (flip m) head (x :: l).reverse head :=
          chain_flip (show Chain m head (x :: l) head from ⟨hx, ‹_›, hc⟩)
        apply Chain.congr hcf
        · intro a ha
          rw [i1, if_pos]
          · rfl
          · rw [hmem]
            simp only [List.mem_cons, List.mem_reverse] at ha ⊢
            tauto
        · intro a ha
          rw [i2, if_pos]
          · rfl
          · rw [hmem]
            simp only [List.mem_append, List.mem_reverse, List.mem_singleton] at ha
            simp only [List.mem_cons]
            simp only [List.mem_cons] at ha
            tauto
    · intro a
      rw [i1]
      simp only [hmem]
    · intro a
      rw [i2]
      simp only [hmem]


/-! ## Deletion of the middle element -/

theorem q_delete_mid_loop_chain {m : Mem} {head x : Nat} {post : List Nat} :
    ∀ (pre : List Nat) (p : Nat) (size : Int) (fuel : Nat),
    Chain m p (pre ++ x :: post) head → head ∉ pre ++ x :: post → x ≠ 0 → pre.length < fuel →
    2 * (pre.length : Int) < size → size ≤ 2 * (pre.length : Int) + 2 →
    q_delete_mid_loop fuel m head (m.next p) (m.next (m.next p)) size
      = some (true, free (free (list_del m x) (m.value x)) x)
  | [], p, size, fuel, h, hh, hx0, hf, _, hs2 => by
    obtain ⟨f, rfl⟩ : ∃ f, fuel = f + 1 := ⟨fuel - 1, by simp at hf; omega⟩
    have hx : x ≠ head := fun e => hh (by simp [e])
    have h1 : m.next p = x := h.1
    have hs : size - 2 ≤ 0 := by simp at hs2; omega
    simp only [q_delete_mid_loop, h1, hx, if_false, hs, if_true, q_release_element, hx0]
    rfl
  | c :: pre, p, size, fuel, h, hh, hx0, hf, hs1, hs2 => by
    obtain ⟨f, rfl⟩ : ∃ f, fuel = f + 1 := ⟨fuel - 1, by simp at hf; omega⟩
    obtain ⟨h1, _, h3⟩ := h
    have hc : c ≠ head := fun e => hh (by simp [e])
    simp only [List.length_cons, Nat.cast_add, Nat.cast_one] at hs1 hs2 hf
    have hs : ¬ size - 2 ≤ 0 := by omega
    have ih := q_delete_mid_loop_chain pre c (size - 2) f h3
      (fun hm => hh (List.mem_cons_of_mem _ hm)) hx0 (by omega) (by omega) (by omega)
    simp only [q_delete_mid_loop, h1, hc, if_false, hs]
    exact ih

theorem q_delete_mid_absent (m : Mem) (head fuel : Nat) (L : List Nat)
    (h : head = 0 ∨ IsList m head L ∧ L = []) : q_delete_mid fuel m head = some (false, m) := by
  rcases h with h | ⟨h, rfl⟩
  · simp [q_delete_mid, h]
  · simp [q_delete_mid, list_empty, (isList_nil_iff h).2 rfl]

theorem middle_split {α : Type} (L : List α) (hne : L ≠ []) :
    ∃ l1 x l2, L = l1 ++ x :: l2 ∧ l1.length = (L.length - 1) / 2 ∧
      L.eraseIdx ((L.length - 1) / 2) = l1 ++ l2 ∧ L[(L.length - 1) / 2]? = some x := by
  have hpos : 0 < L.length := List.length_pos.2 hne
  have hk : (L.length - 1) / 2 < L.length := by omega
  refine ⟨L.take ((L.length - 1) / 2), L[(L.length - 1) / 2], L.drop ((L.length - 1) / 2 + 1),
    ?_, ?_, ?_, ?_⟩
  · rw [List.getElem_cons_drop L _ hk, List.take_append_drop]
  · rw [List.length_take]; omega
  · exact List.eraseIdx_eq_take_drop_succ L _
  · exact List.getElem?_eq_getElem hk


/-! ## Pairwise swap -/

theorem swapPairs_append {α : Type} : ∀ (n : Nat) (A B : List α), A.length = 2 * n →
    swapPairs (A ++ B) = swapPairs A ++ swapPairs B
  | 0, A, B, h => by
    have : A = [] := List.length_eq_zero.1 (by omega)
    subst this
    simp [swapPairs]
  | n + 1, A, B, h => by
    match A, h with
    | a :: b :: t, h =>
      have ht : t.length = 2 * n := by simp at h; omega
      show b :: a :: swapPairs (t ++ B) = b :: a :: (swapPairs t ++ swapPairs B)
      rw [swapPairs_append n t B ht]

theorem swapPairs_perm {α : Type} : ∀ (n : Nat) (L : List α), L.length ≤ n →
    (swapPairs L).Perm L
  | _, [], _ => by simp [swapPairs]
  | _, [a], _ => by simp [swapPairs]
  | n + 1, a :: b :: t, h => by
    simp only [swapPairs]
    have ht : t.length ≤ n := by simp at h; omega
    exact (List.Perm.swap a b _).trans (((swapPairs_perm n t ht).cons b).cons a)

theorem swapPairs_map {α β : Type} (f : α → β) : ∀ (n : Nat) (L : List α), L.length ≤ n →
    swapPairs (L.map f) = (swapPairs L).map f
  | _, [], _ => by simp [swapPairs]
  | _, [a], _ => by simp [swapPairs]
  | n + 1, a :: b :: t, h => by
    have ht : t.length ≤ n := by simp at h; omega
    simp only [List.map_cons, swapPairs, swapPairs_map f n t ht]

theorem exists_snoc {α : Type} (R : List α) (h : R ≠ []) : ∃ R1 x, R = R1 ++ [x] := by
  rcases List.eq_nil_or_concat R with rfl | ⟨R1, x, rfl⟩
  · exact absurd rfl h
  · exact ⟨R1, x, by simp⟩

theorem split_last_two {α : Type} (R : List α) (n : Nat) (h : R.length = n + 2) :
    ∃ R1 x y, R = R1 ++ [x, y] ∧ R1.length = n := by
  obtain ⟨R2, y, rfl⟩ := exists_snoc R (by rintro rfl; simp at h)
  obtain ⟨R1, x, rfl⟩ := exists_snoc R2 (by rintro rfl; simp at h)
  refine ⟨R1, x, y, by simp, ?_⟩
  simp at h
  omega

theorem q_swap_loop_fields : ∀ (n : Nat) (m : Mem) (head : Nat) (b : Bool),
    (q_swap_loop n m head b).value = m.value ∧ (q_swap_loop n m head b).str = m.str ∧
    (q_swap_loop n m head b).live = m.live ∧ (q_swap_loop n m head b).buf = m.buf
  | 0, _, _, _ => ⟨rfl, rfl, rfl, rfl⟩
  | n + 1, m, head, b => by
    simp only [q_swap_loop]
    exact q_swap_loop_fields n _ head _

theorem q_swap_loop_even {head : Nat} : ∀ (k : Nat) (m : Mem) (S R : List Nat),
    R.length = 2 * k → IsList m head (S ++ R) →
    IsList (q_swap_loop (2 * k) m head true) head (swapPairs R ++ S)
  | 0, m, S, R, hR, h => by
    have : R = [] := List.length_eq_zero.1 (by omega)
    subst this
    simpa [q_swap_loop, swapPairs] using h
  | k + 1, m, S, R, hR, h => by
    obtain ⟨R1, x, y, rfl, hR1⟩ := split_last_two R (2 * k) (by omega)
    have e1 : S ++ (R1 ++ [x, y]) = ((S ++ R1) ++ [x]) ++ [y] := by simp
    have hy : m.prev head = y := isList_prev_head (e1 ▸ h)
    have hx : m.prev y = x := by
      have hc := h.2.2.2
      rw [show S ++ (R1 ++ [x, y]) = (S ++ R1) ++ x :: [y] by simp, chain_append] at hc
      exact hc.2.2.1
    have h1 : IsList (list_move m x head) head ((x :: (S ++ R1)) ++ [y]) := by
      have := @isList_list_move m head x (S ++ R1) [y] (by simpa using h)
      simpa using this
    have hy1 : (list_move m x head).prev head = y := isList_prev_head h1
    have h2 : IsList (list_move (list_move m x head) y head) head ((y :: x :: S) ++ R1) := by
      have := @isList_list_move _ head y (x :: (S ++ R1)) [] h1
      simpa using this
    have ih := q_swap_loop_even k _ (y :: x :: S) R1 hR1 h2
    have e2 : 2 * (k + 1) = (2 * k + 1) + 1 := by ring
    rw [e2]
    simp only [q_swap_loop, if_true, hy, hx, Bool.not_true, hy1, Bool.false_eq_true, if_false,
      Bool.not_false]
    rw [swapPairs_append k R1 [x, y] hR1]
    simpa [swapPairs] using ih

theorem q_swap_isList {m : Mem} {head : Nat} {L : List Nat} {fuel : Nat} (h : IsList m head L)
    (hlen : L.length ≤ INT_MAX) (hf : L.length < fuel) :
    ∃ m1, q_swap fuel m head = some m1 ∧ IsList m1 head (swapPairs L) ∧
      m1.value = m.value ∧ m1.str = m.str ∧ m1.live = m.live ∧ m1.buf = m.buf := by
  have hsz := q_size_isList h hlen hf
  by_cases hodd : L.length % 2 = 1
  · obtain ⟨E, c, rfl⟩ := exists_snoc L (by rintro rfl; simp at hodd)
    · have hE : E.length = 2 * (E.length / 2) := by simp at hodd; omega
      have hc : m.prev head = c := isList_prev_head h
      have h1 : IsList (list_move m c head) head ([c] ++ E) := by
        have := @isList_list_move m head c E [] h
        simpa using this
      have h2 := q_swap_loop_even (E.length / 2) _ [c] E hE h1
      refine ⟨q_swap_loop ((E ++ [c]).length - 1) (list_move m c head) head true, ?_, ?_, ?_⟩
      · simp only [q_swap, h.1, if_false, hsz, hodd, if_true, hc]
      · rw [swapPairs_append (E.length / 2) E [c] hE]
        have e : (E ++ [c]).length - 1 = 2 * (E.length / 2) := by simp; omega
        rw [e]
        simpa [swapPairs] using h2
      · exact q_swap_loop_fields _ _ _ _
  · have hL : L.length = 2 * (L.length / 2) := by omega
    have h2 := q_swap_loop_even (L.length / 2) m [] L hL (by simpa using h)
    refine ⟨q_swap_loop L.length m head true, ?_, ?_, ?_⟩
    · simp only [q_swap, h.1, if_false, hsz, hodd]
    · rw [← hL] at h2
      simpa using h2
    · exact q_swap_loop_fields _ _ _ _

theorem q_swap_wf {m : Mem} {head : Nat} {L : List Nat} {fuel : Nat} (h : WF m head L)
    (hlen : L.length ≤ INT_MAX) (hf : L.length < fuel) :
    ∃ m1, q_swap fuel m head = some m1 ∧ WF m1 head (swapPairs L) ∧
      vals m1 (swapPairs L) = swapPairs (vals m L) := by
  obtain ⟨m1, h1, h2, h3, h4, h5, _⟩ := q_swap_isList h.1 hlen hf
  refine ⟨m1, h1, ⟨h2, ?_⟩, ?_⟩
  · apply owned_congr (m := m) (fun e _ => by rw [h3]) (fun a _ => by rw [h5])
    exact owned_perm (swapPairs_perm L.length L le_rfl).symm h.2
  · rw [vals_of_fields h3 h4]
    exact (swapPairs_map _ L.length L le_rfl).symm


/-! ## The invariant in pointer form -/

theorem chain_iterate {m : Mem} : ∀ (L : List Nat) (p q : Nat), Chain m p L q →
    (m.next)^[L.length + 1] p = q
  | [], p, q, h => by simpa using h.1
  | e :: es, p, q, h => by
    have ih := chain_iterate es e q h.2.2
    rw [List.length_cons, Function.iterate_succ_apply, h.1]
    exact ih

theorem chain_next_closed {m : Mem} : ∀ (L : List Nat) (p q : Nat), Chain m p L q →
    ∀ a ∈ p :: L, m.next a ∈ L ++ [q] ∧ m.prev (m.next a) = a
  | [], p, q, h, a, ha => by
    have : a = p := by simpa using ha
    subst this
    rw [h.1]
    exact ⟨by simp, h.2⟩
  | e :: es, p, q, h, a, ha => by
    rcases List.mem_cons.1 ha with rfl | ha
    · rw [h.1]
      exact ⟨by simp, h.2.1⟩
    · have := chain_next_closed es e q h.2.2 a ha
      exact ⟨List.mem_cons_of_mem _ this.1, this.2⟩

theorem chain_prev_closed {m : Mem} : ∀ (L : List Nat) (p q : Nat), Chain m p L q →
    ∀ a ∈ L ++ [q], m.prev a ∈ p :: L ∧ m.next (m.prev a) = a
  | [], p, q, h, a, ha => by
    have : a = q := by simpa using ha
    subst this
    rw [h.2]
    exact ⟨by simp, h.1⟩
  | e :: es, p, q, h, a, ha => by
    rcases List.mem_cons.1 ha with rfl | ha
    · rw [h.2.1]
      exact ⟨by simp, h.1⟩
    · have := chain_prev_closed es e q h.2.2 a ha
      refine ⟨?_, this.2⟩
      have h1 := this.1
      simp only [List.mem_cons] at h1 ⊢
      tauto

theorem isList_reach {m : Mem} {head : Nat} {L : List Nat} (h : IsList m head L) :
    ∀ n, Reach m head n → n ∈ head :: L := by
  rintro n ⟨k, rfl⟩
  induction k with
  | zero => simp
  | succ k ih =>
    rw [Function.iterate_succ_apply']
    have := (chain_next_closed L head head h.2.2.2 _ ih).1
    simp only [List.mem_append, List.mem_singleton, List.mem_cons] at this ⊢
    tauto

theorem circularInv_of_isList {m : Mem} {head : Nat} {L : List Nat} (h : IsList m head L) :
    CircularInv m head := by
  refine ⟨h.1, ⟨L.length, chain_iterate L head head h.2.2.2⟩, ?_⟩
  intro n hn
  have hm := isList_reach h n hn
  have hm2 : n ∈ L ++ [head] := by
    simp only [List.mem_append, List.mem_singleton, List.mem_cons] at hm ⊢
    tauto
  refine ⟨?_, (chain_next_closed L head head h.2.2.2 n hm).2,
    (chain_prev_closed L head head h.2.2.2 n hm2).2⟩
  rcases List.mem_cons.1 hm with rfl | hm
  · exact h.1
  · exact h.2.1 n hm

theorem chain_of_iterate {m : Mem} : ∀ (k p : Nat),
    (∀ i ≤ k, m.prev (m.next ((m.next)^[i] p)) = (m.next)^[i] p) →
    Chain m p ((List.range k).map (fun i => (m.next)^[i + 1] p)) ((m.next)^[k + 1] p)
  | 0, p, h => by
    have := h 0 le_rfl
    simp only [Function.iterate_zero, id] at this
    exact ⟨by simp, by simpa using this⟩
  | k + 1, p, h => by
    rw [List.range_succ_eq_map, List.map_cons, List.map_map]
    have h0 := h 0 (Nat.zero_le _)
    simp only [Function.iterate_zero, id] at h0
    refine ⟨by simp, by simpa using h0, ?_⟩
    have ih := chain_of_iterate k (m.next p) (fun i hi => by
      have := h (i + 1) (by omega)
      simpa only [Function.iterate_succ_apply] using this)
    have e1 : (List.range k).map ((fun i => (m.next)^[i + 1] p) ∘ Nat.succ)
        = (List.range k).map (fun i => (m.next)^[i + 1] (m.next p)) := by
      apply List.map_congr_left
      intro i _
      simp only [Function.comp, Nat.succ_eq_add_one, Function.iterate_succ_apply]
    rw [e1]
    have e2 : (m.next)^[0 + 1] p = m.next p := by simp
    rw [e2, Function.iterate_succ_apply]
    exact ih

theorem iterate_cancel {m : Mem} : ∀ (i a b : Nat),
    (∀ j < i, m.prev (m.next ((m.next)^[j] a)) = (m.next)^[j] a) →
    (∀ j < i, m.prev (m.next ((m.next)^[j] b)) = (m.next)^[j] b) →
    (m.next)^[i] a = (m.next)^[i] b → a = b
  | 0, a, b, _, _, h => by simpa using h
  | i + 1, a, b, ha, hb, h => by
    apply iterate_cancel i a b (fun j hj => ha j (by omega)) (fun j hj => hb j (by omega))
    rw [Function.iterate_succ_apply', Function.iterate_succ_apply'] at h
    have := congrArg m.prev h
    rwa [ha i (by omega), hb i (by omega)] at this

theorem isList_of_circularInv {m : Mem} {head : Nat} (h : CircularInv m head) :
    ∃ L, IsList m head L := by
  classical
  obtain ⟨h0, hex, hall⟩ := h
  have hreach : ∀ i, Reach m head ((m.next)^[i] head) := fun i => ⟨i, rfl⟩
  have hpn : ∀ a i, Reach m head a → m.prev (m.next ((m.next)^[i] a)) = (m.next)^[i] a := by
    rintro a i ⟨k, rfl⟩
    rw [← Function.iterate_add_apply]
    exact (hall _ (hreach _)).2.1
  refine ⟨(List.range (Nat.find hex)).map (fun i => (m.next)^[i + 1] head), h0, ?_, ?_, ?_⟩
  · intro e he
    obtain ⟨i, _, rfl⟩ := List.mem_map.1 he
    exact (hall _ (hreach _)).1
  · have e : head :: (List.range (Nat.find hex)).map (fun i => (m.next)^[i + 1] head)
        = (List.range (Nat.find hex + 1)).map (fun i => (m.next)^[i] head) := by
      rw [List.range_succ_eq_map, List.map_cons, List.map_map]
      rfl
    rw [e]
    apply List.Nodup.map_on _ (List.nodup_range _)
    have key : ∀ i j, i < j → j < Nat.find hex + 1 →
        (m.next)^[i] head = (m.next)^[j] head → False := by
      intro i j hlt hj hij
      have e3 : (m.next)^[j] head = (m.next)^[i] ((m.next)^[j - i] head) := by
        rw [← Function.iterate_add_apply]
        congr 1
        omega
      rw [e3] at hij
      have hc := iterate_cancel i head ((m.next)^[j - i] head)
        (fun k _ => hpn head k (hreach 0)) (fun k _ => hpn _ k (hreach _)) hij
      have hmin := Nat.find_min hex (m := j - i - 1) (by omega)
      apply hmin
      rw [show j - i - 1 + 1 = j - i by omega]
      exact hc.symm
    intro i hi j hj hij
    simp only [List.mem_range] at hi hj
    by_contra hne
    rcases Nat.lt_or_gt_of_ne hne with hlt | hlt
    · exact key i j hlt hj hij
    · exact key j i hlt hi hij.symm
  · have hc := chain_of_iterate (m := m) (Nat.find hex) head (fun i _ => hpn head i (hreach 0))
    rw [Nat.find_spec hex] at hc
    exact hc

theorem circularInv_iff (m : Mem) (head : Nat) :
    CircularInv m head ↔ ∃ L, IsList m head L :=
  ⟨isList_of_circularInv, fun ⟨_, h⟩ => circularInv_of_isList h⟩

theorem q_new_wf {m : Mem} {r : Nat} (h : Fresh m r) :
    (q_new m r).1 = r ∧ WF (q_new m r).2 r [] := by
  have hr := h.1
  refine ⟨by simp [q_new, hr], ⟨hr, by simp, by simp, ?_, ?_⟩, by simp, ?_⟩
  · simp [q_new, hr, INIT_LIST_HEAD, setNext, setPrev]
  · simp [q_new, hr, INIT_LIST_HEAD, setNext, setPrev]
  · intro a ha
    have : a = r := by simpa using ha
    subst this
    exact ⟨hr, by simp [q_new, hr, INIT_LIST_HEAD, setNext, setPrev, malloc]⟩


/-! ## Results that are defined are the expected ones -/

theorem q_size_loop_some {m : Mem} {head : Nat} : ∀ (L : List Nat) (p len fuel n : Nat),
    Chain m p L head → head ∉ L → q_size_loop fuel m head (m.next p) len = some n →
    n = len + L.length
  | _, _, _, 0, _, _, _, hs => by simp [q_size_loop] at hs
  | [], p, len, fuel + 1, n, h, _, hs => by
    simp only [q_size_loop, h.1, if_true, Option.some.injEq] at hs
    simp [hs]
  | e :: es, p, len, fuel + 1, n, h, hh, hs => by
    obtain ⟨h1, _, h3⟩ := h
    simp only [List.mem_cons, not_or] at hh
    have hne : e ≠ head := fun h => hh.1 h.symm
    rw [h1] at hs
    simp only [q_size_loop, hne, if_false] at hs
    split_ifs at hs
    have := q_size_loop_some es e (len + 1) fuel n h3 hh.2 hs
    simp only [List.length_cons]
    omega

theorem q_size_some {m : Mem} {head : Nat} {L : List Nat} (h : IsList m head L) {fuel n : Nat}
    (hs : q_size fuel m head = some n) : n = L.length := by
  simp only [q_size, h.1, if_false] at hs
  simpa using q_size_loop_some L head 0 fuel n h.2.2.2 (List.nodup_cons.1 h.2.2.1).1 hs

theorem q_delete_mid_loop_some {m : Mem} {head x : Nat} {post : List Nat} :
    ∀ (pre : List Nat) (p : Nat) (size : Int) (fuel : Nat) (r : Bool × Mem),
    Chain m p (pre ++ x :: post) head → head ∉ pre ++ x :: post → x ≠ 0 →
    2 * (pre.length : Int) < size → size ≤ 2 * (pre.length : Int) + 2 →
    q_delete_mid_loop fuel m head (m.next p) (m.next (m.next p)) size = some r →
    r = (true, free (free (list_del m x) (m.value x)) x)
  | _, _, _, 0, _, _, _, _, _, _, hs => by simp [q_delete_mid_loop] at hs
  | [], p, size, fuel + 1, r, h, hh, hx0, _, hs2, hs => by
    have hx : x ≠ head := fun e => hh (by simp [e])
    have h1 : m.next p = x := h.1
    have hsz : size - 2 ≤ 0 := by simp at hs2; omega
    simp only [q_delete_mid_loop, h1, hx, if_false, hsz, if_true, q_release_element, hx0,
      Option.some.injEq] at hs
    rw [← hs]
    rfl
  | c :: pre, p, size, fuel + 1, r, h, hh, hx0, hs1, hs2, hs => by
    obtain ⟨h1, _, h3⟩ := h
    have hc : c ≠ head := fun e => hh (by simp [e])
    simp only [List.length_cons, Nat.cast_add, Nat.cast_one] at hs1 hs2
    have hsz : ¬ size - 2 ≤ 0 := by omega
    simp only [q_delete_mid_loop, h1, hc, if_false, hsz] at hs
    exact q_delete_mid_loop_some pre c (size - 2) fuel r h3
      (fun hm => hh (List.mem_cons_of_mem _ hm)) hx0 (by omega) (by omega) hs

theorem free_fields (m : Mem) (p : Nat) :
    (free m p).next = m.next ∧ (free m p).prev = m.prev ∧ (free m p).value = m.value ∧
    (free m p).str = m.str ∧ (free m p).buf = m.buf := by
  unfold free
  split_ifs <;> exact ⟨rfl, rfl, rfl, rfl, rfl⟩

theorem isList_release {m : Mem} {head x : Nat} {l1 l2 : List Nat}
    (h : IsList m head (l1 ++ x :: l2)) :
    IsList (free (free (list_del m x) (m.value x)) x) head (l1 ++ l2) := by
  apply isList_congr (m := list_del m x) _ _ (isList_list_del h)
  · rw [(free_fields _ _).1, (free_fields _ _).1]
  · rw [(free_fields _ _).2.1, (free_fields _ _).2.1]

theorem q_delete_mid_isList {m : Mem} {head x : Nat} {l1 l2 : List Nat} {fuel : Nat}
    (h : IsList m head (l1 ++ x :: l2)) (hmid : l1.length = ((l1 ++ x :: l2).length - 1) / 2)
    (hlen : (l1 ++ x :: l2).length ≤ INT_MAX) (hf : (l1 ++ x :: l2).length < fuel) :
    q_delete_mid fuel m head = some (true, free (free (list_del m x) (m.value x)) x) := by
  have hne : ¬ m.next head = head := fun hh => by simpa using (isList_nil_iff h).1 hh
  have hx : x ≠ 0 := h.2.1 x (by simp)
  have hsz := q_size_isList h hlen hf
  have hlen2 : (l1 ++ x :: l2).length = l1.length + l2.length + 1 := by simp; omega
  have hloop := @q_delete_mid_loop_chain m head x l2 l1 head
    ((l1 ++ x :: l2).length : Int) fuel h.2.2.2 (List.nodup_cons.1 h.2.2.1).1 hx
    (by omega) (by omega) (by omega)
  simp only [q_delete_mid, h.1, list_empty, hne, decide_False, false_or, Bool.false_eq_true,
    if_false, hsz, hloop]

theorem q_delete_mid_some {m : Mem} {head x : Nat} {l1 l2 : List Nat} {fuel : Nat}
    (h : IsList m head (l1 ++ x :: l2)) (hmid : l1.length = ((l1 ++ x :: l2).length - 1) / 2)
    {r : Bool × Mem} (hs : q_delete_mid fuel m head = some r) :
    r = (true, free (free (list_del m x) (m.value x)) x) := by
  have hne : ¬ m.next head = head := fun hh => by simpa using (isList_nil_iff h).1 hh
  have hx : x ≠ 0 := h.2.1 x (by simp)
  have hlen2 : (l1 ++ x :: l2).length = l1.length + l2.length + 1 := by simp; omega
  simp only [q_delete_mid, h.1, list_empty, hne, decide_False, false_or, Bool.false_eq_true,
    if_false] at hs
  cases hq : q_size fuel m head with
  | none => simp [hq] at hs
  | some n =>
    have hn := q_size_some h hq
    subst hn
    simp only [hq] at hs
    exact @q_delete_mid_loop_some m head x l2 l1 head
      ((l1 ++ x :: l2).length : Int) fuel r h.2.2.2 (List.nodup_cons.1 h.2.2.1).1 hx
      (by omega) (by omega) hs

theorem owned_release {m : Mem} {head x : Nat} {l1 l2 : List Nat}
    (ho : Owned m head (l1 ++ x :: l2)) :
    Owned (free (free (list_del m x) (m.value x)) x) head (l1 ++ l2) ∧
    (free (free (list_del m x) (m.value x)) x).live x = false ∧
    (free (free (list_del m x) (m.value x)) x).live (m.value x) = false := by
  have hx := owned_live ho (e := x) (by simp)
  have hlive : ∀ a, (free (free (list_del m x) (m.value x)) x).live a
      = if a = x then false else if a = m.value x then false else m.live a := by
    intro a
    simp only [free, hx.1, hx.2.2.1, if_false, upd]
    rfl
  have hc := owned_cons.1 (owned_perm List.perm_middle ho)
  refine ⟨owned_congr (fun e _ => ?_) (fun a ha => ?_) hc.1, ?_, ?_⟩
  · rw [(free_fields _ _).2.2.1, (free_fields _ _).2.2.1]
    rfl
  · rw [hlive]
    have h1 : a ≠ x := fun e => hc.2.1 (e ▸ ha)
    have h2 : a ≠ m.value x := fun e => hc.2.2.1 (e ▸ ha)
    simp [h1, h2]
  · rw [hlive]; simp
  · rw [hlive]; simp

theorem release_vals (m : Mem) (x : Nat) (L : List Nat) :
    vals (free (free (list_del m x) (m.value x)) x) L = vals m L := by
  apply vals_of_fields
  · rw [(free_fields _ _).2.2.1, (free_fields _ _).2.2.1]; rfl
  · rw [(free_fields _ _).2.2.2.1, (free_fields _ _).2.2.2.1]; rfl

theorem chain_agree {m m1 : Mem} : ∀ (L : List Nat) (p q : Nat), Chain m p L q →
    Chain m1 p L q →
    (∀ a ∈ p :: L, m1.next a = m.next a) ∧ (∀ a ∈ L ++ [q], m1.prev a = m.prev a)
  | [], p, q, h, h1 => by
    constructor
    · intro a ha
      have : a = p := by simpa using ha
      subst this
      rw [h.1, h1.1]
    · intro a ha
      have : a = q := by simpa using ha
      subst this
      rw [h.2, h1.2]
  | e :: es, p, q, h, h1 => by
    obtain ⟨i1, i2⟩ := chain_agree es e q h.2.2 h1.2.2
    constructor
    · intro a ha
      rcases List.mem_cons.1 ha with rfl | ha
      · rw [h.1, h1.1]
      · exact i1 a ha
    · intro a ha
      rcases List.mem_cons.1 ha with rfl | ha
      · rw [h.2.1, h1.2.1]
      · exact i2 a ha

theorem chain_unique {m : Mem} {q : Nat} : ∀ (L L1 : List Nat) (p : Nat), Chain m p L q →
    Chain m p L1 q → q ∉ L → q ∉ L1 → L = L1
  | [], [], _, _, _, _, _ => rfl
  | [], e :: es, p, h, h1, _, hq => by
    exfalso
    apply hq
    rw [← h.1, h1.1]
    simp
  | e :: es, [], p, h, h1, hq, _ => by
    exfalso
    apply hq
    rw [← h1.1, h.1]
    simp
  | e :: es, e1 :: es1, p, h, h1, hq, hq1 => by
    have he : e = e1 := by rw [← h.1, h1.1]
    subst he
    rw [chain_unique es es1 e h.2.2 h1.2.2 (fun hm => hq (List.mem_cons_of_mem _ hm))
      (fun hm => hq1 (List.mem_cons_of_mem _ hm))]

theorem isList_unique {m : Mem} {head : Nat} {L L1 : List Nat} (h : IsList m head L)
    (h1 : IsList m head L1) : L = L1 :=
  chain_unique L L1 head h.2.2.2 h1.2.2.2 (List.nodup_cons.1 h.2.2.1).1
    (List.nodup_cons.1 h1.2.2.1).1


/-! ## The link structure alone -/

theorem malloc_fields (m : Mem) (r : Nat) :
    (malloc m r).next = m.next ∧ (malloc m r).prev = m.prev ∧ (malloc m r).value = m.value ∧
    (malloc m r).str = m.str ∧ (malloc m r).buf = m.buf := by
  unfold malloc
  split_ifs <;> exact ⟨rfl, rfl, rfl, rfl, rfl⟩

theorem q_insert_head_isList {m : Mem} {head : Nat} {L : List Nat} (s : List Nat) (r1 r2 : Nat)
    (h : IsList m head L) (hf : r1 ∉ head :: L) :
    ∃ L1, IsList (q_insert_head m head s r1 r2).2 head L1 := by
  have hn : ∀ m1 : Mem, m1.next = m.next → m1.prev = m.prev → IsList m1 head L :=
    fun m1 e1 e2 => isList_congr e1 e2 h
  have ha : (malloc (malloc m r1) r2).next = m.next ∧ (malloc (malloc m r1) r2).prev = m.prev :=
    ⟨by rw [(malloc_fields _ _).1, (malloc_fields _ _).1],
      by rw [(malloc_fields _ _).2.1, (malloc_fields _ _).2.1]⟩
  by_cases h1 : r1 = 0
  · exact ⟨L, by simpa [q_insert_head, h.1, h1, malloc] using h⟩
  · by_cases h2 : r2 = 0
    · refine ⟨L, ?_⟩
      have e : q_insert_head m head s r1 r2
          = (false, free (setValue (malloc (malloc m r1) r2) r1 r2) r1) := by
        simp [q_insert_head, h.1, h1, h2, setValue]
      rw [e]
      apply hn
      · rw [(free_fields _ _).1]; exact ha.1
      · rw [(free_fields _ _).2.1]; exact ha.2
    · rw [q_insert_head_eq m head s r1 r2 h.1 h1 h2]
      exact ⟨r1 :: L, isList_list_add (hn _ ha.1 ha.2) h1 hf⟩

theorem q_insert_tail_isList {m : Mem} {head : Nat} {L : List Nat} (s : List Nat) (r1 r2 : Nat)
    (h : IsList m head L) (hf : r1 ∉ head :: L) :
    ∃ L1, IsList (q_insert_tail m head s r1 r2).2 head L1 := by
  have hn : ∀ m1 : Mem, m1.next = m.next → m1.prev = m.prev → IsList m1 head L :=
    fun m1 e1 e2 => isList_congr e1 e2 h
  have ha : (malloc (malloc m r1) r2).next = m.next ∧ (malloc (malloc m r1) r2).prev = m.prev :=
    ⟨by rw [(malloc_fields _ _).1, (malloc_fields _ _).1],
      by rw [(malloc_fields _ _).2.1, (malloc_fields _ _).2.1]⟩
  by_cases h1 : r1 = 0
  · exact ⟨L, by simpa [q_insert_tail, h.1, h1, malloc] using h⟩
  · by_cases h2 : r2 = 0
    · refine ⟨L, ?_⟩
      have e : q_insert_tail m head s r1 r2
          = (false, free (setValue (malloc (malloc m r1) r2) r1 r2) r1) := by
        simp [q_insert_tail, h.1, h1, h2, setValue]
      rw [e]
      apply hn
      · rw [(free_fields _ _).1]; exact ha.1
      · rw [(free_fields _ _).2.1]; exact ha.2
    · rw [q_insert_tail_eq m head s r1 r2 h.1 h1 h2]
      exact ⟨L ++ [r1], isList_list_add_tail (hn _ ha.1 ha.2) h1 hf⟩

theorem q_remove_head_isList {m : Mem} {head : Nat} {L : List Nat} {sp bufsize : Nat}
    (h : IsList m head L) {r : Nat × Mem} (hs : q_remove_head m head sp bufsize = some r) :
    IsList r.2 head L.tail := by
  cases L with
  | nil =>
    rw [q_remove_head_absent m head sp bufsize [] (Or.inr ⟨h, rfl⟩)] at hs
    rw [← Option.some.inj hs]
    exact h
  | cons e es =>
    rw [q_remove_head_some h hs]
    obtain ⟨c1, c2, _⟩ := copy_fields m sp bufsize (m.str (m.value e))
    exact @isList_list_del _ head e [] es (isList_congr c1 c2 h)

theorem q_remove_tail_isList {m : Mem} {head : Nat} {L : List Nat} {sp bufsize : Nat}
    (h : IsList m head L) {r : Nat × Mem} (hs : q_remove_tail m head sp bufsize = some r) :
    IsList r.2 head L.dropLast := by
  by_cases hL : L = []
  · subst hL
    rw [q_remove_tail_absent m head sp bufsize [] (Or.inr ⟨h, rfl⟩)] at hs
    rw [← Option.some.inj hs]
    exact h
  · obtain ⟨es, e, rfl⟩ := exists_snoc L hL
    rw [q_remove_tail_some h hs]
    obtain ⟨c1, c2, _⟩ := copy_fields m sp bufsize (m.str (m.value e))
    have := @isList_list_del _ head e es [] (isList_congr c1 c2 h)
    simpa using this

/-! ## Runs -/

theorem step_wf {fuel head : Nat} {m m1 : Mem} {L : List Nat} (h : WF m head L) :
    ∀ (op : Op), step fuel head m op = some m1 →
    ∃ L1, WF m1 head L1 ∧ L1.length + removals [op] = L.length + insertions [op]
  | Op.insert_head s r1 r2, hs => by
    simp only [step] at hs
    split_ifs at hs with hc
    obtain ⟨f1, f2, _⟩ := hc
    have := q_insert_head_wf s h f1 f2
    simp only [Option.some.injEq] at hs
    subst hs
    exact ⟨r1 :: L, this.2.1, by simp [removals, insertions]⟩
  | Op.insert_tail s r1 r2, hs => by
    simp only [step] at hs
    split_ifs at hs with hc
    obtain ⟨f1, f2, _⟩ := hc
    have := q_insert_tail_wf s h f1 f2
    simp only [Option.some.injEq] at hs
    subst hs
    exact ⟨L ++ [r1], this.2.1, by simp [removals, insertions]⟩
  | Op.remove_head sp bufsize, hs => by
    simp only [step] at hs
    cases hq : q_remove_head m head sp bufsize with
    | none => simp [hq] at hs
    | some r =>
      obtain ⟨e, m2⟩ := r
      simp only [hq] at hs
      split_ifs at hs with hc
      simp only [Option.some.injEq] at hs
      subst hs
      cases L with
      | nil =>
        rw [q_remove_head_absent m head sp bufsize [] (Or.inr ⟨h.1, rfl⟩)] at hq
        simp only [Option.some.injEq, Prod.mk.injEq] at hq
        exact absurd hq.1.symm hc
      | cons x xs =>
        exact ⟨xs, (q_remove_head_some_wf h hq).2, by simp [removals, insertions]⟩
  | Op.remove_tail sp bufsize, hs => by
    simp only [step] at hs
    cases hq : q_remove_tail m head sp bufsize with
    | none => simp [hq] at hs
    | some r =>
      obtain ⟨e, m2⟩ := r
      simp only [hq] at hs
      split_ifs at hs with hc
      simp only [Option.some.injEq] at hs
      subst hs
      by_cases hL : L = []
      · subst hL
        rw [q_remove_tail_absent m head sp bufsize [] (Or.inr ⟨h.1, rfl⟩)] at hq
        simp only [Option.some.injEq, Prod.mk.injEq] at hq
        exact absurd hq.1.symm hc
      · obtain ⟨xs, x, rfl⟩ := exists_snoc L hL
        exact ⟨xs, (q_remove_tail_some_wf h hq).2, by simp [removals, insertions]⟩
  | Op.delete_mid, hs => by
    simp only [step] at hs
    by_cases hL : L = []
    · subst hL
      rw [q_delete_mid_absent m head fuel [] (Or.inr ⟨h.1, rfl⟩)] at hs
      simp at hs
    · obtain ⟨l1, x, l2, rfl, hmid, _, _⟩ := middle_split L hL
      cases hq : q_delete_mid fuel m head with
      | none => simp [hq] at hs
      | some r =>
        have hr := q_delete_mid_some h.1 hmid hq
        subst hr
        simp only [hq, Option.some.injEq] at hs
        subst hs
        refine ⟨l1 ++ l2, ⟨isList_release h.1, (owned_release h.2).1⟩, ?_⟩
        simp [removals, insertions]
        omega

theorem run_wf {fuel head : Nat} : ∀ (ops : List Op) (m m1 : Mem) (L : List Nat),
    WF m head L → run fuel head m ops = some m1 →
    ∃ L1, WF m1 head L1 ∧ L1.length + removals ops = L.length + insertions ops
  | [], m, m1, L, h, hr => by
    simp only [run, Option.some.injEq] at hr
    subst hr
    exact ⟨L, h, by simp [removals, insertions]⟩
  | op :: ops, m, m1, L, h, hr => by
    simp only [run] at hr
    cases hs : step fuel head m op with
    | none => simp [hs] at hr
    | some m2 =>
      simp only [hs] at hr
      obtain ⟨L2, h2, e2⟩ := step_wf h op hs
      obtain ⟨L1, h1, e1⟩ := run_wf ops m2 m1 L2 h2 hr
      refine ⟨L1, h1, ?_⟩
      cases op <;> simp [removals, insertions] at e2 ⊢ <;> omega


/-! # The claims -/

/-- C1: on a well-formed list holding the elements `L`, when both allocations
succeed (`r1` and `r2` are results `malloc` may return), `q_insert_head`
returns `true` and the list then holds the new element `r1`, with value `s`,
followed by `L`; `q_insert_tail` returns `true` and the list then holds `L`
followed by the new element with value `s`.  The old elements keep their
order and their values. -/
theorem q_insert_holds_new_element (m : Mem) (head : Nat) (L : List Nat) (s : List Nat)
    (r1 r2 : Nat) (h : WF m head L) (h1 : Fresh m r1) (h2 : Fresh (malloc m r1) r2) :
    ((q_insert_head m head s r1 r2).1 = true ∧
      WF (q_insert_head m head s r1 r2).2 head (r1 :: L) ∧
      vals (q_insert_head m head s r1 r2).2 (r1 :: L) = s :: vals m L) ∧
    ((q_insert_tail m head s r1 r2).1 = true ∧
      WF (q_insert_tail m head s r1 r2).2 head (L ++ [r1]) ∧
      vals (q_insert_tail m head s r1 r2).2 (L ++ [r1]) = vals m L ++ [s]) :=
  ⟨q_insert_head_wf s h h1 h2, q_insert_tail_wf s h h1 h2⟩

/-- The insertion theorem on the list holding `"a"`, inserting `"b"`. -/
theorem q_insert_holds_new_element_witness :
    WF (build [[97]]) 1 [2] ∧ Fresh (build [[97]]) 4 ∧ Fresh (malloc (build [[97]]) 4) 5 ∧
    ((q_insert_head (build [[97]]) 1 [98] 4 5).1 = true ∧
      WF (q_insert_head (build [[97]]) 1 [98] 4 5).2 1 (4 :: [2]) ∧
      vals (q_insert_head (build [[97]]) 1 [98] 4 5).2 (4 :: [2]) = [98] :: vals (build [[97]]) [2]) ∧
    ((q_insert_tail (build [[97]]) 1 [98] 4 5).1 = true ∧
      WF (q_insert_tail (build [[97]]) 1 [98] 4 5).2 1 ([2] ++ [4]) ∧
      vals (q_insert_tail (build [[97]]) 1 [98] 4 5).2 ([2] ++ [4])
        = vals (build [[97]]) [2] ++ [[98]]) :=
  ⟨by decide, by decide, by decide,
    q_insert_holds_new_element (build [[97]]) 1 [2] [98] 4 5 (by decide) (by decide) (by decide)⟩

/-- C2: `q_remove_head` and `q_remove_tail` return `NULL` exactly when the list
is absent (`head = 0`) or empty, and then leave the memory as it is.  With no
buffer, or with a buffer of capacity at least one (a `size_t`), on a list
`e :: es` `q_remove_head` returns `e` and leaves `es`, and on a list
`es ++ [e]` `q_remove_tail` returns `e` and leaves `es`.  The returned element
is no longer in the list, is still allocated and still carries its value, and
when it was the only element the anchor is left pointing to itself in both
directions. -/
theorem q_remove_returns_end_element (m : Mem) (head : Nat) (L : List Nat) (sp bufsize : Nat)
    (h : head = 0 ∨ WF m head L) (hb : sp = 0 ∨ 1 ≤ bufsize ∧ bufsize < SIZE_MOD) :
    ((head = 0 ∨ L = [] → q_remove_head m head sp bufsize = some (0, m) ∧
        q_remove_tail m head sp bufsize = some (0, m)) ∧
      (∃ r, q_remove_head m head sp bufsize = some r ∧ (r.1 = 0 ↔ head = 0 ∨ L = [])) ∧
      (∃ r, q_remove_tail m head sp bufsize = some r ∧ (r.1 = 0 ↔ head = 0 ∨ L = []))) ∧
    (∀ e es, head ≠ 0 → L = e :: es →
      ∃ m1, q_remove_head m head sp bufsize = some (e, m1) ∧
      WF m1 head es ∧ vals m1 es = vals m es ∧
      m1.str (m1.value e) = m.str (m.value e) ∧
      m1.live e = true ∧ m1.live (m1.value e) = true ∧ e ∉ es ∧
      (es = [] → m1.next head = head ∧ m1.prev head = head)) ∧
    (∀ es e, head ≠ 0 → L = es ++ [e] →
      ∃ m1, q_remove_tail m head sp bufsize = some (e, m1) ∧
      WF m1 head es ∧ vals m1 es = vals m es ∧
      m1.str (m1.value e) = m.str (m.value e) ∧
      m1.live e = true ∧ m1.live (m1.value e) = true ∧ e ∉ es ∧
      (es = [] → m1.next head = head ∧ m1.prev head = head)) := by
  have habs : head = 0 ∨ L = [] → q_remove_head m head sp bufsize = some (0, m) ∧
      q_remove_tail m head sp bufsize = some (0, m) := by
    intro h0
    have hc : head = 0 ∨ IsList m head L ∧ L = [] := by
      rcases h0 with h0 | h0
      · exact Or.inl h0
      · rcases h with h | h
        · exact Or.inl h
        · exact Or.inr ⟨h.1, h0⟩
    exact ⟨q_remove_head_absent m head sp bufsize L hc,
      q_remove_tail_absent m head sp bufsize L hc⟩
  refine ⟨⟨habs, ?_, ?_⟩, ?_, ?_⟩
  · by_cases h0 : head = 0 ∨ L = []
    · exact ⟨(0, m), (habs h0).1, by simp [h0]⟩
    · rw [not_or] at h0
      have hw := h.resolve_left h0.1
      cases L with
      | nil => exact absurd rfl h0.2
      | cons e es =>
        obtain ⟨m1, a1, _⟩ := q_remove_head_wf sp bufsize hw hb
        have : e ≠ 0 := hw.1.2.1 e (by simp)
        exact ⟨(e, m1), a1, by simp [this, h0.1]⟩
  · by_cases h0 : head = 0 ∨ L = []
    · exact ⟨(0, m), (habs h0).2, by simp [h0]⟩
    · rw [not_or] at h0
      have hw := h.resolve_left h0.1
      obtain ⟨es, e, rfl⟩ := exists_snoc L h0.2
      obtain ⟨m1, a1, _⟩ := q_remove_tail_wf sp bufsize hw hb
      have : e ≠ 0 := hw.1.2.1 e (by simp)
      exact ⟨(e, m1), a1, by simp [this, h0.1]⟩
  · intro e es hh hL
    subst hL
    have hw : WF m head (e :: es) := h.resolve_left hh
    obtain ⟨m1, a1, a2, a3, a4, a5⟩ := q_remove_head_wf sp bufsize hw hb
    have hl := owned_live hw.2 (e := e) (by simp)
    refine ⟨m1, a1, a2, vals_of_fields a3 a4 es, by rw [a3, a4], by rw [a5]; exact hl.2.1,
      by rw [a5, a3]; exact hl.2.2.2, ?_, ?_⟩
    · exact (List.nodup_cons.1 (List.nodup_cons.1 hw.1.2.2.1).2).1
    · intro hes
      subst hes
      exact a2.1.2.2.2
  · intro es e hh hL
    subst hL
    have hw : WF m head (es ++ [e]) := h.resolve_left hh
    obtain ⟨m1, a1, a2, a3, a4, a5⟩ := q_remove_tail_wf sp bufsize hw hb
    have hl := owned_live hw.2 (e := e) (by simp)
    refine ⟨m1, a1, a2, vals_of_fields a3 a4 es, by rw [a3, a4], by rw [a5]; exact hl.2.1,
      by rw [a5, a3]; exact hl.2.2.2, ?_, ?_⟩
    · have hnd := (List.nodup_cons.1 hw.1.2.2.1).2
      rw [List.nodup_append] at hnd
      exact fun hm => hnd.2.2 hm (List.mem_singleton_self e)
    · intro hes
      subst hes
      exact a2.1.2.2.2

/-- The removal theorem on the list holding `"a", "b"`, with a buffer of
capacity `2` at `100`. -/
theorem q_remove_returns_end_element_witness :
    WF (build [[97], [98]]) 1 [2, 4] ∧
    (∃ m1, q_remove_head (build [[97], [98]]) 1 100 2 = some (2, m1) ∧ WF m1 1 [4]) ∧
    (∃ m1, q_remove_tail (build [[97], [98]]) 1 100 2 = some (4, m1) ∧ WF m1 1 [2]) :=
  have t := q_remove_returns_end_element (build [[97], [98]]) 1 [2, 4] 100 2
    (Or.inr (by decide)) (Or.inr (by decide))
  have t1 := t.2.1 2 [4] (by decide) rfl
  have t2 := t.2.2 [2] 4 (by decide) rfl
  ⟨by decide, ⟨t1.choose, t1.choose_spec.1, t1.choose_spec.2.1⟩,
    ⟨t2.choose, t2.choose_spec.1, t2.choose_spec.2.1⟩⟩

/-- C3: `q_size` of an absent list is `0`; on a list holding the elements `L`
(at most `INT_MAX` of them, the count being an `int`) it returns the number of
elements of `L`, `0` for the empty list.  When the memory was reached from a
new list by a sequence of successful insert, remove and delete-middle calls,
that number is the number of insertions minus the number of removals and
deletions. -/
theorem q_size_counts_elements (m : Mem) (head : Nat) (L : List Nat) (fuel : Nat)
    (h : IsList m head L) (hlen : L.length ≤ INT_MAX) (hf : L.length < fuel) :
    q_size fuel m head = some L.length ∧ q_size fuel m 0 = some 0 ∧
    ∀ (m0 : Mem) (ops : List Op) (fuel0 : Nat), Fresh m0 head →
      run fuel0 head (q_new m0 head).2 ops = some m →
      removals ops ≤ insertions ops ∧
        q_size fuel m head = some (insertions ops - removals ops) := by
  have hs := q_size_isList h hlen hf
  refine ⟨hs, by simp [q_size], ?_⟩
  intro m0 ops fuel0 hfr hrun
  obtain ⟨L1, hw, he⟩ := run_wf ops _ m [] (q_new_wf hfr).2 hrun
  have := isList_unique h hw.1
  subst this
  simp only [List.length_nil, Nat.zero_add] at he
  refine ⟨by omega, ?_⟩
  rw [hs]
  congr 1
  omega

/-- The size theorem on the list reached by three insertions and one removal. -/
theorem q_size_counts_elements_witness :
    q_size 3 ((run 0 1 (q_new mem0 1).2 [Op.insert_tail [97] 2 3, Op.insert_head [99] 6 7,
        Op.insert_tail [98] 4 5, Op.remove_head 0 0]).getD mem0) 1 = some 2 ∧
      q_size 3 ((run 0 1 (q_new mem0 1).2 [Op.insert_tail [97] 2 3, Op.insert_head [99] 6 7,
        Op.insert_tail [98] 4 5, Op.remove_head 0 0]).getD mem0) 1
        = some (insertions [Op.insert_tail [97] 2 3, Op.insert_head [99] 6 7,
            Op.insert_tail [98] 4 5, Op.remove_head 0 0]
          - removals [Op.insert_tail [97] 2 3, Op.insert_head [99] 6 7,
            Op.insert_tail [98] 4 5, Op.remove_head 0 0]) :=
  have t := q_size_counts_elements
    ((run 0 1 (q_new mem0 1).2 [Op.insert_tail [97] 2 3, Op.insert_head [99] 6 7,
      Op.insert_tail [98] 4 5, Op.remove_head 0 0]).getD mem0) 1 [2, 4] 3
    (by decide) (by decide) (by decide)
  ⟨t.1, (t.2.2 mem0 [Op.insert_tail [97] 2 3, Op.insert_head [99] 6 7,
    Op.insert_tail [98] 4 5, Op.remove_head 0 0] 0 (by decide) rfl).2⟩


/-- C4: the circular doubly-linked invariant.  `CircularInv` is the pointer
form (every node `n` reachable from the anchor has `n.next.prev = n` and
`n.prev.next = n`, and the chain returns to the anchor); it holds exactly when
the anchor holds some element sequence (`IsList`).  It holds for the list made
by a successful `q_new`, and from a list satisfying it every call of
`q_insert_head`, `q_insert_tail` (the new node not being a node of the list),
`q_remove_head`, `q_remove_tail` (which return with no buffer or with a buffer
of capacity at least one), `q_reverse`, `q_delete_mid` and `q_swap` (the last
two counting the elements in an `int`) gives a list satisfying it. -/
theorem circular_invariant_preserved (m : Mem) (head : Nat) (L : List Nat)
    (h : IsList m head L) :
    (∀ (m1 : Mem) (head1 : Nat), CircularInv m1 head1 ↔ ∃ L1, IsList m1 head1 L1) ∧
    CircularInv m head ∧
    (∀ (m0 : Mem) (r : Nat), Fresh m0 r → (q_new m0 r).1 = r ∧ CircularInv (q_new m0 r).2 r) ∧
    (∀ (s : List Nat) (r1 r2 : Nat), r1 ∉ head :: L →
      CircularInv (q_insert_head m head s r1 r2).2 head ∧
      CircularInv (q_insert_tail m head s r1 r2).2 head) ∧
    (∀ (sp bufsize : Nat),
      (∀ r, q_remove_head m head sp bufsize = some r → CircularInv r.2 head) ∧
      (∀ r, q_remove_tail m head sp bufsize = some r → CircularInv r.2 head) ∧
      (sp = 0 ∨ 1 ≤ bufsize ∧ bufsize < SIZE_MOD →
        (∃ r, q_remove_head m head sp bufsize = some r ∧ CircularInv r.2 head) ∧
        (∃ r, q_remove_tail m head sp bufsize = some r ∧ CircularInv r.2 head))) ∧
    (∀ (fuel : Nat), L.length < fuel →
      ∃ m1, q_reverse fuel m head = some m1 ∧ CircularInv m1 head) ∧
    (∀ (fuel : Nat), L.length < fuel → L.length ≤ INT_MAX →
      (∃ r m1, q_delete_mid fuel m head = some (r, m1) ∧ CircularInv m1 head) ∧
      (∃ m1, q_swap fuel m head = some m1 ∧ CircularInv m1 head)) := by
  refine ⟨circularInv_iff, circularInv_of_isList h, ?_, ?_, ?_, ?_, ?_⟩
  · intro m0 r hr
    exact ⟨(q_new_wf hr).1, circularInv_of_isList (q_new_wf hr).2.1⟩
  · intro s r1 r2 hf
    obtain ⟨L1, h1⟩ := q_insert_head_isList s r1 r2 h hf
    obtain ⟨L2, h2⟩ := q_insert_tail_isList s r1 r2 h hf
    exact ⟨circularInv_of_isList h1, circularInv_of_isList h2⟩
  · intro sp bufsize
    refine ⟨fun r hr => circularInv_of_isList (q_remove_head_isList h hr),
      fun r hr => circularInv_of_isList (q_remove_tail_isList h hr), fun hb => ?_⟩
    have e1 : ∃ r, q_remove_head m head sp bufsize = some r := by
      cases L with
      | nil => exact ⟨_, q_remove_head_absent m head sp bufsize [] (Or.inr ⟨h, rfl⟩)⟩
      | cons e es => exact ⟨_, q_remove_head_eq sp bufsize h hb⟩
    have e2 : ∃ r, q_remove_tail m head sp bufsize = some r := by
      by_cases hL : L = []
      · exact ⟨_, q_remove_tail_absent m head sp bufsize L (Or.inr ⟨h, hL⟩)⟩
      · obtain ⟨es, e, rfl⟩ := exists_snoc L hL
        exact ⟨_, q_remove_tail_eq sp bufsize h hb⟩
    obtain ⟨r1, hr1⟩ := e1
    obtain ⟨r2, hr2⟩ := e2
    exact ⟨⟨r1, hr1, circularInv_of_isList (q_remove_head_isList h hr1)⟩,
      ⟨r2, hr2, circularInv_of_isList (q_remove_tail_isList h hr2)⟩⟩
  · intro fuel hf
    obtain ⟨m1, h1, h2, _⟩ := q_reverse_isList h hf
    exact ⟨m1, h1, circularInv_of_isList h2⟩
  · intro fuel hf hlen
    constructor
    · by_cases hL : L = []
      · exact ⟨false, m, q_delete_mid_absent m head fuel L (Or.inr ⟨h, hL⟩),
          circularInv_of_isList h⟩
      · obtain ⟨l1, x, l2, rfl, hmid, _, _⟩ := middle_split L hL
        exact ⟨true, _, q_delete_mid_isList h hmid hlen hf,
          circularInv_of_isList (isList_release h)⟩
    · obtain ⟨m1, h1, h2, _⟩ := q_swap_isList h hlen hf
      exact ⟨m1, h1, circularInv_of_isList h2⟩

/-- The invariant theorem on the list holding `"a", "b", "c"`. -/
theorem circular_invariant_preserved_witness :
    IsList (build [[97], [98], [99]]) 1 [2, 4, 6] ∧
      CircularInv (build [[97], [98], [99]]) 1 ∧
      (∃ m1, q_reverse 4 (build [[97], [98], [99]]) 1 = some m1 ∧ CircularInv m1 1) ∧
      (∃ m1, q_swap 4 (build [[97], [98], [99]]) 1 = some m1 ∧ CircularInv m1 1) :=
  have t := circular_invariant_preserved (build [[97], [98], [99]]) 1 [2, 4, 6] (by decide)
  ⟨by decide, t.2.1, t.2.2.2.2.2.1 4 (by decide),
    (t.2.2.2.2.2.2 4 (by decide) (by decide)).2⟩

/-- C5: on a well-formed list holding `L`, a successful `q_insert_head` of `s`
followed at once by `q_remove_head` (with no buffer, or with a buffer of
capacity at least one) returns the element just inserted, whose value is `s`,
and leaves the list holding exactly `L` again, with the values and the links
of the anchor and of every element of `L` as they were before the
insertion. -/
theorem insert_head_remove_head_roundtrip (m : Mem) (head : Nat) (L : List Nat) (s : List Nat)
    (r1 r2 sp bufsize : Nat) (h : WF m head L) (h1 : Fresh m r1)
    (h2 : Fresh (malloc m r1) r2) (hb : sp = 0 ∨ 1 ≤ bufsize ∧ bufsize < SIZE_MOD) :
    (q_insert_head m head s r1 r2).1 = true ∧
    ∃ m2, q_remove_head (q_insert_head m head s r1 r2).2 head sp bufsize = some (r1, m2) ∧
      m2.str (m2.value r1) = s ∧ WF m2 head L ∧ vals m2 L = vals m L ∧
      ∀ a ∈ head :: L, m2.next a = m.next a ∧ m2.prev a = m.prev a := by
  obtain ⟨a1, a2, a3⟩ := q_insert_head_wf s h h1 h2
  obtain ⟨m2, b1, b2, b3, b4, _⟩ := q_remove_head_wf sp bufsize a2 hb
  have hv : vals (q_insert_head m head s r1 r2).2 (r1 :: L)
      = (q_insert_head m head s r1 r2).2.str ((q_insert_head m head s r1 r2).2.value r1)
        :: vals (q_insert_head m head s r1 r2).2 L := rfl
  rw [hv] at a3
  obtain ⟨a4, a5⟩ := List.cons.inj a3
  refine ⟨a1, m2, b1, by rw [b3, b4]; exact a4, b2, ?_, ?_⟩
  · rw [vals_of_fields b3 b4]
    exact a5
  · obtain ⟨c1, c2⟩ := chain_agree L head head h.1.2.2.2 b2.1.2.2.2
    intro a ha
    refine ⟨c1 a ha, c2 a ?_⟩
    simp only [List.mem_append, List.mem_singleton, List.mem_cons] at ha ⊢
    tauto

/-- The round trip on the list holding `"a"`, inserting `"b"`, with a buffer
of capacity `2` at `100`. -/
theorem insert_head_remove_head_roundtrip_witness :
    WF (build [[97]]) 1 [2] ∧
    ∃ m2, q_remove_head (q_insert_head (build [[97]]) 1 [98] 4 5).2 1 100 2 = some (4, m2) ∧
      m2.str (m2.value 4) = [98] ∧ WF m2 1 [2] ∧
      vals m2 [2] = vals (build [[97]]) [2] ∧
      ∀ a ∈ 1 :: [2], m2.next a = (build [[97]]).next a ∧ m2.prev a = (build [[97]]).prev a :=
  ⟨by decide, (insert_head_remove_head_roundtrip (build [[97]]) 1 [2] [98] 4 5 100 2
    (by decide) (by decide) (by decide) (Or.inr (by decide))).2⟩

/-- C6, evaluated on the code: `q_sort` returns the memory as it is.  On the
list holding `"b", "a"` the list still holds `"b", "a"` after the call, which
is not in ascending order. -/
theorem q_sort_leaves_order :
    (∀ (m : Mem) (head : Nat), q_sort m head = m) ∧
    WF (build [[98], [97]]) 1 [2, 4] ∧
    WF (q_sort (build [[98], [97]]) 1) 1 [2, 4] ∧
    vals (q_sort (build [[98], [97]]) 1) [2, 4] = [[98], [97]] ∧
    sortedAsc (vals (q_sort (build [[98], [97]]) 1) [2, 4]) = false :=
  ⟨fun _ _ => rfl, by decide, by decide, by decide, by decide⟩

/-- C7, evaluated on the code: `q_delete_dup` returns `true` and the memory as
it is.  On the sorted list holding `"a", "a", "b"` the list still holds
`"a", "a", "b"` after the call, while the values occurring exactly once are
`"b"` alone. -/
theorem q_delete_dup_keeps_duplicates :
    (∀ (m : Mem) (head : Nat), q_delete_dup m head = (true, m)) ∧
    WF (build [[97], [97], [98]]) 1 [2, 4, 6] ∧
    sortedAsc (vals (build [[97], [97], [98]]) [2, 4, 6]) = true ∧
    WF (q_delete_dup (build [[97], [97], [98]]) 1).2 1 [2, 4, 6] ∧
    vals (q_delete_dup (build [[97], [97], [98]]) 1).2 [2, 4, 6] = [[97], [97], [98]] ∧
    uniqueOnly (vals (build [[97], [97], [98]]) [2, 4, 6]) = [[98]] :=
  ⟨fun _ _ => rfl, by decide, by decide, by decide, by decide, by decide⟩

/-- C8, evaluated on the code: on the list `a, b, c, d, e, f` (elements at
`2, 4, 6, 8, 10, 12`) `q_delete_mid` removes the element at index `2`, leaving
`a, b, d, e, f`; the list left is not the one with index `6 / 2 = 3`
removed. -/
theorem q_delete_mid_six_elements :
    WF (build [[97], [98], [99], [100], [101], [102]]) 1 [2, 4, 6, 8, 10, 12] ∧
    ∃ m1, q_delete_mid 7 (build [[97], [98], [99], [100], [101], [102]]) 1 = some (true, m1) ∧
      WF m1 1 [2, 4, 8, 10, 12] ∧
      vals m1 [2, 4, 8, 10, 12] = [[97], [98], [100], [101], [102]] ∧
      ¬ IsList m1 1 ([2, 4, 6, 8, 10, 12].eraseIdx (6 / 2)) :=
  ⟨by decide, _, rfl, by decide, by decide, by decide⟩

/-- C9: on a well-formed list holding `L` (at most `INT_MAX` elements),
`q_swap` gives the list holding `swapPairs L`: every adjacent pair exchanged,
an unpaired final element staying last, the values moving with their
elements.  So `a, b, c, d` becomes `b, a, d, c`, `a, b, c` becomes `b, a, c`,
and an empty or single-element sequence is unchanged; the empty list and the
absent list are left as they are. -/
theorem q_swap_exchanges_pairs (m : Mem) (head : Nat) (L : List Nat) (fuel : Nat)
    (h : WF m head L) (hlen : L.length ≤ INT_MAX) (hf : L.length < fuel) :
    (∃ m1, q_swap fuel m head = some m1 ∧ WF m1 head (swapPairs L) ∧
      vals m1 (swapPairs L) = swapPairs (vals m L)) ∧
    (∀ a b c d : Nat, swapPairs [a, b, c, d] = [b, a, d, c] ∧
      swapPairs [a, b, c] = [b, a, c] ∧ swapPairs [a] = [a] ∧
      swapPairs ([] : List Nat) = []) ∧
    (L = [] → q_swap fuel m head = some m) ∧
    q_swap fuel m 0 = some m := by
  refine ⟨q_swap_wf h hlen hf, fun a b c d => ⟨rfl, rfl, rfl, rfl⟩, ?_, by simp [q_swap]⟩
  intro hL
  subst hL
  have hs := q_size_isList h.1 hlen hf
  simp [q_swap, h.1.1, hs, q_swap_loop]

/-- The swap theorem on the list holding `"a", "b", "c"`. -/
theorem q_swap_exchanges_pairs_witness :
    WF (build [[97], [98], [99]]) 1 [2, 4, 6] ∧
    ∃ m1, q_swap 4 (build [[97], [98], [99]]) 1 = some m1 ∧ WF m1 1 (swapPairs [2, 4, 6]) ∧
      vals m1 (swapPairs [2, 4, 6]) = swapPairs (vals (build [[97], [98], [99]]) [2, 4, 6]) :=
  ⟨by decide, (q_swap_exchanges_pairs (build [[97], [98], [99]]) 1 [2, 4, 6] 4 (by decide)
    (by decide) (by decide)).1⟩

/-- C10: on a well-formed list holding `L`, `q_reverse` gives the list whose
forward traversal from the anchor visits the elements of `L` in reversed
order, the same elements with the same values; the empty list and the absent
list are left as they are. -/
theorem q_reverse_reverses_order (m : Mem) (head : Nat) (L : List Nat) (fuel : Nat)
    (h : WF m head L) (hf : L.length < fuel) :
    (∃ m1, q_reverse fuel m head = some m1 ∧ WF m1 head L.reverse ∧
      vals m1 L.reverse = (vals m L).reverse ∧ m1.value = m.value ∧ m1.str = m.str) ∧
    (L = [] → q_reverse fuel m head = some m) ∧
    q_reverse fuel m 0 = some m := by
  refine ⟨?_, ?_, by simp [q_reverse]⟩
  · obtain ⟨m1, h1, h2, _, _, h3, h4, h5, _⟩ := q_reverse_isList h.1 hf
    refine ⟨m1, h1, ⟨h2, ?_⟩, ?_, h3, h4⟩
    · apply owned_congr (m := m) (fun e _ => by rw [h3]) (fun a _ => by rw [h5])
      exact owned_perm (List.reverse_perm L).symm h.2
    · rw [vals_of_fields h3 h4]
      simp [vals]
  · intro hL
    subst hL
    simp [q_reverse, list_empty, (isList_nil_iff h.1).2 rfl]

/-- The reversal theorem on the list holding `"a", "b", "c"`. -/
theorem q_reverse_reverses_order_witness :
    WF (build [[97], [98], [99]]) 1 [2, 4, 6] ∧
    ∃ m1, q_reverse 4 (build [[97], [98], [99]]) 1 = some m1 ∧
      WF m1 1 [2, 4, 6].reverse ∧
      vals m1 [2, 4, 6].reverse = (vals (build [[97], [98], [99]]) [2, 4, 6]).reverse ∧
      m1.value = (build [[97], [98], [99]]).value ∧ m1.str = (build [[97], [98], [99]]).str :=
  ⟨by decide, (q_reverse_reverses_order (build [[97], [98], [99]]) 1 [2, 4, 6] 4 (by decide)
    (by decide)).1⟩

/-! ## Further lemmas -/

theorem mem_ext {m m1 : Mem} (h1 : ∀ a, m1.next a = m.next a) (h2 : ∀ a, m1.prev a = m.prev a)
    (h3 : m1.value = m.value) (h4 : m1.str = m.str) (h5 : m1.buf = m.buf)
    (h6 : m1.live = m.live) : m1 = m := by
  cases m
  cases m1
  simp only [Mem.mk.injEq]
  exact ⟨funext h1, funext h2, h3, h4, h5, h6⟩

theorem q_reverse_twice {m : Mem} {head : Nat} {L : List Nat} {fuel : Nat} (h : IsList m head L)
    (hf : L.length < fuel) :
    ∃ m1, q_reverse fuel m head = some m1 ∧ IsList m1 head L.reverse ∧
      q_reverse fuel m1 head = some m := by
  obtain ⟨m1, a1, a2, a3, a4, a5, a6, a7, a8⟩ := q_reverse_isList h hf
  obtain ⟨m2, b1, _, b3, b4, b5, b6, b7, b8⟩ := q_reverse_isList a2 (by simpa using hf)
  refine ⟨m1, a1, a2, ?_⟩
  rw [b1]
  congr 1
  apply mem_ext
  · intro a
    rw [b3, a3, a4]
    by_cases ha : a ∈ head :: L
    · have : a ∈ head :: L.reverse := by simpa using ha
      simp [ha, this]
    · have : a ∉ head :: L.reverse := by simpa using ha
      simp [ha, this]
  · intro a
    rw [b4, a3, a4]
    by_cases ha : a ∈ head :: L
    · have : a ∈ head :: L.reverse := by simpa using ha
      simp [ha, this]
    · have : a ∉ head :: L.reverse := by simpa using ha
      simp [ha, this]
  · rw [b5, a5]
  · rw [b6, a6]
  · rw [b8, a8]
  · rw [b7, a7]

theorem swapPairs_swapPairs {α : Type} : ∀ (n : Nat) (L : List α), L.length ≤ n →
    swapPairs (swapPairs L) = L
  | _, [], _ => rfl
  | _, [_], _ => rfl
  | n + 1, a :: b :: t, h => by
    have ht : t.length ≤ n := by simp at h; omega
    show a :: b :: swapPairs (swapPairs t) = a :: b :: t
    rw [swapPairs_swapPairs n t ht]

theorem swapPairs_length {α : Type} (L : List α) : (swapPairs L).length = L.length :=
  (swapPairs_perm L.length L le_rfl).length_eq

theorem size_pred (c : Nat) (h1 : 1 ≤ c) (h2 : c < SIZE_MOD) :
    (c + (SIZE_MOD - 1)) % SIZE_MOD = c - 1 := by
  unfold SIZE_MOD at *
  omega

theorem copy_out_buf (m : Mem) (sp : Nat) (v : List Nat) (c : Nat) (h1 : 1 ≤ c)
    (h2 : c < SIZE_MOD) (a : Nat) :
    (copy_out m sp v c).buf a =
      if a = sp + (c - 1) then 0
      else if sp ≤ a ∧ a < sp + (c - 1) then v.getD (a - sp) 0 else m.buf a := by
  simp only [copy_out, setByte, strncpy, upd, size_pred c h1 h2]

theorem q_remove_head_buf {m : Mem} {head e : Nat} {L : List Nat} (sp bufsize : Nat)
    (h : IsList m head (e :: L)) (hb : sp = 0 ∨ 1 ≤ bufsize ∧ bufsize < SIZE_MOD) :
    ∃ m1, q_remove_head m head sp bufsize = some (e, m1) ∧
      m1.buf = (if sp ≠ 0 then copy_out m sp (m.str (m.value e)) bufsize else m).buf :=
  ⟨_, q_remove_head_eq sp bufsize h hb, rfl⟩

theorem q_remove_tail_buf {m : Mem} {head e : Nat} {L : List Nat} (sp bufsize : Nat)
    (h : IsList m head (L ++ [e])) (hb : sp = 0 ∨ 1 ≤ bufsize ∧ bufsize < SIZE_MOD) :
    ∃ m1, q_remove_tail m head sp bufsize = some (e, m1) ∧
      m1.buf = (if sp ≠ 0 then copy_out m sp (m.str (m.value e)) bufsize else m).buf :=
  ⟨_, q_remove_tail_eq sp bufsize h hb, rfl⟩

theorem read_cstr_take (buf : Nat → Nat) : ∀ (k : Nat) (v : List Nat) (p fuel : Nat),
    (∀ i < k, buf (p + i) = v.getD i 0) → buf (p + k) = 0 → k ≤ v.length →
    (∀ b ∈ v, b ≠ 0) → k < fuel → read_cstr buf fuel p = some (v.take k)
  | 0, v, p, fuel, _, h0, _, _, hf => by
    obtain ⟨f, rfl⟩ : ∃ f, fuel = f + 1 := ⟨fuel - 1, by omega⟩
    simp only [Nat.add_zero] at h0
    simp [read_cstr, h0]
  | k + 1, [], p, fuel, _, _, hk, _, _ => by simp at hk
  | k + 1, b :: v, p, fuel, hb, h0, hk, hv, hf => by
    obtain ⟨f, rfl⟩ : ∃ f, fuel = f + 1 := ⟨fuel - 1, by omega⟩
    have hp : buf p = b := by
      have := hb 0 (by omega)
      simpa using this
    have hbne : b ≠ 0 := hv b (by simp)
    have ih := read_cstr_take buf k v (p + 1) f
      (fun i hi => by
        have := hb (i + 1) (by omega)
        rw [show p + 1 + i = p + (i + 1) by omega, this]
        simp)
      (by rw [show p + 1 + k = p + (k + 1) by omega]; exact h0)
      (by simp at hk; omega) (fun x hx => hv x (List.mem_cons_of_mem _ hx)) (by omega)
    simp [read_cstr, hp, hbne, ih]

theorem take_min_length {α : Type} (v : List α) (n : Nat) :
    v.take (min v.length n) = v.take n := by
  rcases le_total v.length n with h | h
  · rw [min_eq_left h, List.take_length, List.take_of_length_le h]
  · rw [min_eq_right h]

/-! # The claims, continued -/

/-- C11: on a list holding `L`, `q_reverse` applied twice gives back the
memory it started from: the same elements in the same order with the same
links.  After the first call the list holds `L` reversed. -/
theorem q_reverse_twice_restores (m : Mem) (head : Nat) (L : List Nat) (fuel : Nat)
    (h : IsList m head L) (hf : L.length < fuel) :
    ∃ m1, q_reverse fuel m head = some m1 ∧ IsList m1 head L.reverse ∧
      q_reverse fuel m1 head = some m :=
  q_reverse_twice h hf

/-- The double reversal on the list holding `"a", "b", "c"`. -/
theorem q_reverse_twice_restores_witness :
    IsList (build [[97], [98], [99]]) 1 [2, 4, 6] ∧
    ∃ m1, q_reverse 4 (build [[97], [98], [99]]) 1 = some m1 ∧
      IsList m1 1 [2, 4, 6].reverse ∧
      q_reverse 4 m1 1 = some (build [[97], [98], [99]]) :=
  ⟨by decide, q_reverse_twice_restores (build [[97], [98], [99]]) 1 [2, 4, 6] 4 (by decide)
    (by decide)⟩

/-- C12: whenever `q_delete_mid` returns, it returns `false` exactly when the
list is absent or empty.  On an absent or empty list it returns `false` and
the memory unchanged.  On a non-empty list (at most `INT_MAX` elements, enough
fuel) it returns `true` from inside the loop, the list then holds the old
elements but one, the size is one less, and a single-element list is left
empty. -/
theorem q_delete_mid_result (m : Mem) (head : Nat) (L : List Nat) (fuel : Nat)
    (h : head = 0 ∨ WF m head L) (hlen : L.length ≤ INT_MAX) (hf : L.length < fuel) :
    (∀ (fuel1 : Nat) (r : Bool) (m1 : Mem), q_delete_mid fuel1 m head = some (r, m1) →
      (r = false ↔ head = 0 ∨ L = [])) ∧
    (head = 0 ∨ L = [] → q_delete_mid fuel m head = some (false, m)) ∧
    (head ≠ 0 → L ≠ [] → ∃ m1 L1, q_delete_mid fuel m head = some (true, m1) ∧
      WF m1 head L1 ∧ L1.Sublist L ∧ L1.length + 1 = L.length ∧
      q_size fuel m1 head = some (L.length - 1) ∧ (L.length = 1 → L1 = [])) := by
  have habs : head = 0 ∨ L = [] → ∀ fuel1, q_delete_mid fuel1 m head = some (false, m) := by
    intro h0 fuel1
    rcases h0 with h0 | h0
    · exact q_delete_mid_absent m head fuel1 L (Or.inl h0)
    · rcases h with h | h
      · exact q_delete_mid_absent m head fuel1 L (Or.inl h)
      · exact q_delete_mid_absent m head fuel1 L (Or.inr ⟨h.1, h0⟩)
  refine ⟨?_, fun h0 => habs h0 fuel, ?_⟩
  · intro fuel1 r m1 hr
    by_cases h0 : head = 0 ∨ L = []
    · rw [habs h0 fuel1] at hr
      simp only [Option.some.injEq, Prod.mk.injEq] at hr
      simp [← hr.1, h0]
    · rw [not_or] at h0
      obtain ⟨l1, x, l2, rfl, hmid, _, _⟩ := middle_split L h0.2
      have := q_delete_mid_some (h.resolve_left h0.1).1 hmid hr
      simp only [Prod.mk.injEq] at this
      simp [this.1, h0.1]
  · intro hh hL
    have hw := h.resolve_left hh
    obtain ⟨l1, x, l2, rfl, hmid, _, _⟩ := middle_split L hL
    have hi := isList_release hw.1
    have hl : (l1 ++ l2).length + 1 = (l1 ++ x :: l2).length := by simp; omega
    refine ⟨_, l1 ++ l2, q_delete_mid_isList hw.1 hmid hlen hf,
      ⟨hi, (owned_release hw.2).1⟩,
      List.Sublist.append_left (List.sublist_cons_self x l2) l1, hl, ?_, ?_⟩
    · rw [q_size_isList hi (by omega) (by omega)]
      congr 1
      omega
    · intro h1
      apply List.length_eq_zero.1
      omega

/-- The deletion result on the list holding `"a"` alone. -/
theorem q_delete_mid_result_witness :
    WF (build [[97]]) 1 [2] ∧
    ∃ m1 L1, q_delete_mid 2 (build [[97]]) 1 = some (true, m1) ∧
      WF m1 1 L1 ∧ L1.Sublist [2] ∧ L1.length + 1 = [2].length ∧
      q_size 2 m1 1 = some ([2].length - 1) ∧ ([2].length = 1 → L1 = []) :=
  ⟨by decide, (q_delete_mid_result (build [[97]]) 1 [2] 2 (Or.inr (by decide)) (by decide)
    (by decide)).2.2 (by decide) (by decide)⟩

/-- C13, evaluated on the code: `q_delete_dup` returns `true` whatever the
handle is, also for the absent handle `0`. -/
theorem q_delete_dup_absent_handle :
    (q_delete_dup mem0 0).1 = true ∧ ∀ (m : Mem) (head : Nat), (q_delete_dup m head).1 = true :=
  ⟨rfl, fun _ _ => rfl⟩

/-- C15: with the absent handle `0`, whatever the memory holds and with no
fuel at all, `q_size` returns `0`, `q_insert_head` and `q_insert_tail` return
`false`, `q_remove_head` and `q_remove_tail` return `NULL`, `q_delete_mid`
returns `false`, and these calls as well as `q_free`, `q_swap`, `q_reverse`
and `q_sort` leave the memory as it is: no element is allocated and nothing
is written. -/
theorem absent_handle_results (m : Mem) (s : List Nat) (r1 r2 sp bufsize : Nat) :
    q_size 0 m 0 = some 0 ∧
    q_insert_head m 0 s r1 r2 = (false, m) ∧
    q_insert_tail m 0 s r1 r2 = (false, m) ∧
    q_remove_head m 0 sp bufsize = some (0, m) ∧
    q_remove_tail m 0 sp bufsize = some (0, m) ∧
    q_delete_mid 0 m 0 = some (false, m) ∧
    q_free 0 m 0 = some m ∧
    q_swap 0 m 0 = some m ∧
    q_reverse 0 m 0 = some m ∧
    q_sort m 0 = m := by
  refine ⟨?_, ?_, ?_, ?_, ?_, ?_, ?_, ?_, ?_, rfl⟩
  · simp [q_size]
  · simp [q_insert_head]
  · simp [q_insert_tail]
  · simp [q_remove_head]
  · simp [q_remove_tail]
  · simp [q_delete_mid]
  · simp [q_free]
  · simp [q_swap]
  · simp [q_reverse]

/-! ## Failed allocations, released elements, copied strings -/

theorem q_insert_fail_eq (m : Mem) (head : Nat) (s : List Nat) (r1 r2 : Nat) (hh : head ≠ 0)
    (hfail : r1 = 0 ∨ r2 = 0) :
    q_insert_head m head s r1 r2
      = (false, if r1 = 0 then m else free (setValue (malloc (malloc m r1) r2) r1 r2) r1) ∧
    q_insert_tail m head s r1 r2
      = (false, if r1 = 0 then m else free (setValue (malloc (malloc m r1) r2) r1 r2) r1) := by
  by_cases h1 : r1 = 0
  · simp [q_insert_head, q_insert_tail, hh, h1, malloc]
  · have h2 : r2 = 0 := hfail.resolve_left h1
    simp [q_insert_head, q_insert_tail, hh, h1, h2, setValue]

theorem insert_fail_wf {m : Mem} {head : Nat} {L : List Nat} (r1 r2 : Nat) (h : WF m head L)
    (h1 : r1 = 0 ∨ Fresh m r1) :
    WF (if r1 = 0 then m else free (setValue (malloc (malloc m r1) r2) r1 r2) r1) head L ∧
    vals (if r1 = 0 then m else free (setValue (malloc (malloc m r1) r2) r1 r2) r1) L
      = vals m L ∧
    (if r1 = 0 then m else free (setValue (malloc (malloc m r1) r2) r1 r2) r1).next = m.next ∧
    (if r1 = 0 then m else free (setValue (malloc (malloc m r1) r2) r1 r2) r1).prev = m.prev ∧
    (r2 = 0 →
      (if r1 = 0 then m else free (setValue (malloc (malloc m r1) r2) r1 r2) r1).live
        = m.live) := by
  by_cases h0 : r1 = 0
  · subst h0
    exact ⟨h, rfl, rfl, rfl, fun _ => rfl⟩
  · have hfr : Fresh m r1 := h1.resolve_left h0
    simp only [h0, if_false]
    have hn : (free (setValue (malloc (malloc m r1) r2) r1 r2) r1).next = m.next := by
      rw [(free_fields _ _).1]
      show (malloc (malloc m r1) r2).next = m.next
      rw [(malloc_fields _ _).1, (malloc_fields _ _).1]
    have hp : (free (setValue (malloc (malloc m r1) r2) r1 r2) r1).prev = m.prev := by
      rw [(free_fields _ _).2.1]
      show (malloc (malloc m r1) r2).prev = m.prev
      rw [(malloc_fields _ _).2.1, (malloc_fields _ _).2.1]
    have hs : (free (setValue (malloc (malloc m r1) r2) r1 r2) r1).str = m.str := by
      rw [(free_fields _ _).2.2.2.1]
      show (malloc (malloc m r1) r2).str = m.str
      rw [(malloc_fields _ _).2.2.2.1, (malloc_fields _ _).2.2.2.1]
    have hv : ∀ e, e ≠ r1 →
        (free (setValue (malloc (malloc m r1) r2) r1 r2) r1).value e = m.value e := by
      intro e he
      rw [(free_fields _ _).2.2.1]
      show upd (malloc (malloc m r1) r2).value r1 r2 e = m.value e
      rw [upd_other _ _ he, (malloc_fields _ _).2.2.1, (malloc_fields _ _).2.2.1]
    have hl : ∀ a, a ≠ r2 →
        (free (setValue (malloc (malloc m r1) r2) r1 r2) r1).live a = m.live a := by
      intro a ha
      by_cases har : a = r1
      · subst har
        simp [free, h0, hfr.2]
      · by_cases h2 : r2 = 0
        · simp [free, malloc, setValue, h0, h2, upd, har]
        · simp [free, malloc, setValue, h0, h2, upd, har, ha]
    have hnot : ∀ a ∈ head :: L ++ L.map m.value, a ≠ r1 := by
      intro a ha hr
      have := (h.2.2 a ha).2
      rw [hr, hfr.2] at this
      cases this
    have hval : ∀ e ∈ L, (free (setValue (malloc (malloc m r1) r2) r1 r2) r1).value e
        = m.value e := fun e he => hv e (hnot e (by simp [he]))
    have hlive2 : ∀ a ∈ head :: L ++ L.map m.value,
        (free (setValue (malloc (malloc m r1) r2) r1 r2) r1).live a = m.live a := by
      intro a ha
      by_cases h2 : a = r2
      · have hla := (h.2.2 a ha).2
        have har := hnot a ha
        have ha0 := (h.2.2 a ha).1
        rw [hla]
        subst h2
        simp [free, malloc, setValue, h0, ha0, upd, har]
      · exact hl a h2
    refine ⟨⟨isList_congr hn hp h.1, owned_congr hval hlive2 h.2⟩, ?_, hn, hp, ?_⟩
    · apply vals_congr
      intro e he
      rw [hval e he, hs]
    · intro h2
      funext a
      by_cases har : a = r1
      · subst har
        simp [free, h0, hfr.2]
      · simp [free, malloc, setValue, h0, h2, upd, har]

theorem q_insert_true_only (m : Mem) (head : Nat) (s : List Nat) (r1 r2 : Nat) :
    ((q_insert_head m head s r1 r2).1 = true → head ≠ 0 ∧ r1 ≠ 0 ∧ r2 ≠ 0) ∧
    ((q_insert_tail m head s r1 r2).1 = true → head ≠ 0 ∧ r1 ≠ 0 ∧ r2 ≠ 0) := by
  by_cases hh : head = 0
  · simp [q_insert_head, q_insert_tail, hh]
  · by_cases hf : r1 = 0 ∨ r2 = 0
    · obtain ⟨e1, e2⟩ := q_insert_fail_eq m head s r1 r2 hh hf
      rw [e1, e2]
      simp
    · rw [not_or] at hf
      exact ⟨fun _ => ⟨hh, hf.1, hf.2⟩, fun _ => ⟨hh, hf.1, hf.2⟩⟩

theorem copy_out_string (m : Mem) (sp : Nat) (v : List Nat) (c : Nat) (h1 : 1 ≤ c)
    (h2 : c < SIZE_MOD) :
    (∀ i < min v.length (c - 1), (copy_out m sp v c).buf (sp + i) = v.getD i 0) ∧
    (copy_out m sp v c).buf (sp + min v.length (c - 1)) = 0 ∧
    ((∀ b ∈ v, b ≠ 0) → ∀ fuel, min v.length (c - 1) < fuel →
      read_cstr (copy_out m sp v c).buf fuel sp = some (v.take (c - 1))) ∧
    (∀ a, a < sp ∨ sp + c ≤ a → (copy_out m sp v c).buf a = m.buf a) ∧
    (copy_out m sp v c).buf (sp + (c - 1)) = 0 := by
  have hb : ∀ i < min v.length (c - 1), (copy_out m sp v c).buf (sp + i) = v.getD i 0 := by
    intro i hi
    have hi2 : i < c - 1 := lt_of_lt_of_le hi (min_le_right _ _)
    rw [copy_out_buf m sp v c h1 h2, if_neg (by omega), if_pos ⟨by omega, by omega⟩]
    congr 1
    omega
  have h0 : (copy_out m sp v c).buf (sp + min v.length (c - 1)) = 0 := by
    rw [copy_out_buf m sp v c h1 h2]
    rcases le_total v.length (c - 1) with hle | hle
    · rw [min_eq_left hle]
      by_cases he : v.length = c - 1
      · rw [if_pos (by omega)]
      · rw [if_neg (by omega), if_pos ⟨by omega, by omega⟩]
        simp [List.getD_eq_default]
    · rw [min_eq_right hle, if_pos rfl]
  refine ⟨hb, h0, ?_, ?_, ?_⟩
  · intro hv fuel hf
    rw [← take_min_length]
    exact read_cstr_take _ _ v sp fuel hb h0 (min_le_left _ _) hv hf
  · intro a ha
    rw [copy_out_buf m sp v c h1 h2, if_neg (by omega), if_neg (by omega)]
  · rw [copy_out_buf m sp v c h1 h2, if_pos rfl]

/-! # The claims, concluded -/

/-- C16: on a well-formed list holding `L`, when the allocation of the element
fails (`r1 = 0`) or that of the string buffer fails (`r2 = 0`, the element
`r1` being a result `malloc` may return), `q_insert_head` and `q_insert_tail`
return `false` and the list holds exactly `L` as before, with the same
values, the same `next` and `prev` links, and the same allocated addresses
(the element is released again).  In every call, `true` is returned only when
both allocations succeeded. -/
theorem q_insert_allocation_failure (m : Mem) (head : Nat) (L : List Nat) (s : List Nat)
    (r1 r2 : Nat) (h : WF m head L) (h1 : r1 = 0 ∨ Fresh m r1) (hfail : r1 = 0 ∨ r2 = 0) :
    ((q_insert_head m head s r1 r2).1 = false ∧
      WF (q_insert_head m head s r1 r2).2 head L ∧
      vals (q_insert_head m head s r1 r2).2 L = vals m L ∧
      (q_insert_head m head s r1 r2).2.next = m.next ∧
      (q_insert_head m head s r1 r2).2.prev = m.prev ∧
      (q_insert_head m head s r1 r2).2.live = m.live) ∧
    ((q_insert_tail m head s r1 r2).1 = false ∧
      WF (q_insert_tail m head s r1 r2).2 head L ∧
      vals (q_insert_tail m head s r1 r2).2 L = vals m L ∧
      (q_insert_tail m head s r1 r2).2.next = m.next ∧
      (q_insert_tail m head s r1 r2).2.prev = m.prev ∧
      (q_insert_tail m head s r1 r2).2.live = m.live) ∧
    (∀ (m0 : Mem) (head0 : Nat) (s0 : List Nat) (q0 v0 : Nat),
      ((q_insert_head m0 head0 s0 q0 v0).1 = true → q0 ≠ 0 ∧ v0 ≠ 0) ∧
      ((q_insert_tail m0 head0 s0 q0 v0).1 = true → q0 ≠ 0 ∧ v0 ≠ 0)) := by
  obtain ⟨e1, e2⟩ := q_insert_fail_eq m head s r1 r2 h.1.1 hfail
  obtain ⟨a1, a2, a3, a4, a5⟩ := insert_fail_wf r1 r2 h h1
  have hlive : (if r1 = 0 then m else free (setValue (malloc (malloc m r1) r2) r1 r2) r1).live
      = m.live := by
    by_cases h0 : r1 = 0
    · simp [h0]
    · exact a5 (hfail.resolve_left h0)
  refine ⟨?_, ?_, ?_⟩
  · rw [e1]
    exact ⟨rfl, a1, a2, a3, a4, hlive⟩
  · rw [e2]
    exact ⟨rfl, a1, a2, a3, a4, hlive⟩
  · intro m0 head0 s0 q0 v0
    obtain ⟨t1, t2⟩ := q_insert_true_only m0 head0 s0 q0 v0
    exact ⟨fun ht => (t1 ht).2, fun ht => (t2 ht).2⟩

/-- The failed insertion on the list holding `"a"`, the buffer allocation
failing. -/
theorem q_insert_allocation_failure_witness :
    WF (build [[97]]) 1 [2] ∧
    (q_insert_head (build [[97]]) 1 [98] 4 0).1 = false ∧
      WF (q_insert_head (build [[97]]) 1 [98] 4 0).2 1 [2] ∧
      (q_insert_tail (build [[97]]) 1 [98] 4 0).1 = false ∧
      WF (q_insert_tail (build [[97]]) 1 [98] 4 0).2 1 [2] :=
  have t := q_insert_allocation_failure (build [[97]]) 1 [2] [98] 4 0 (by decide)
    (Or.inr (by decide)) (Or.inr rfl)
  ⟨by decide, t.1.1, t.1.2.1, t.2.1.1, t.2.1.2.1⟩

/-- C17 fails as stated: given the absent handle `0`, `q_release_element`
reads `e->value` through it and has no defined result; it does not return
with the memory unchanged. -/
theorem q_release_element_null_faults :
    q_release_element mem0 0 = none ∧ q_release_element mem0 0 ≠ some mem0 :=
  ⟨rfl, by simp [q_release_element]⟩

/-- C17 as amended: given a non-absent element `e`, `q_release_element`
returns after releasing the string buffer `e->value` and then `e` itself:
`e` is no longer allocated, every address other than `e` and `e->value`
keeps its allocation state, and no link, value or string is written.  There
is no guard for the absent handle, for which there is no defined result. -/
theorem q_release_element_releases (m : Mem) (e : Nat) (he : e ≠ 0) :
    q_release_element m e = some (free (free m (m.value e)) e) ∧
    (free (free m (m.value e)) e).live e = false ∧
    (m.value e ≠ 0 → (free (free m (m.value e)) e).live (m.value e) = false) ∧
    (∀ a, a ≠ e → a ≠ m.value e → (free (free m (m.value e)) e).live a = m.live a) ∧
    (free (free m (m.value e)) e).next = m.next ∧
    (free (free m (m.value e)) e).prev = m.prev ∧
    (free (free m (m.value e)) e).value = m.value ∧
    (free (free m (m.value e)) e).str = m.str ∧
    ∀ m0 : Mem, q_release_element m0 0 = none := by
  refine ⟨by simp [q_release_element, he], by simp [free, he], ?_, ?_, ?_, ?_, ?_, ?_,
    fun _ => rfl⟩
  · intro hv
    by_cases h : m.value e = e
    · simp [free, he, h]
    · simp [free, he, hv, upd, h]
  · intro a h1 h2
    by_cases hv : m.value e = 0
    · simp [free, he, hv, upd, h1]
    · simp [free, he, hv, upd, h1, h2]
  · rw [(free_fields _ _).1, (free_fields _ _).1]
  · rw [(free_fields _ _).2.1, (free_fields _ _).2.1]
  · rw [(free_fields _ _).2.2.1, (free_fields _ _).2.2.1]
  · rw [(free_fields _ _).2.2.2.1, (free_fields _ _).2.2.2.1]

/-- The release of the element at `2` of the list holding `"a"`. -/
theorem q_release_element_releases_witness :
    q_release_element (build [[97]]) 2
      = some (free (free (build [[97]]) ((build [[97]]).value 2)) 2) ∧
    (free (free (build [[97]]) ((build [[97]]).value 2)) 2).live 2 = false :=
  have t := q_release_element_releases (build [[97]]) 2 (by decide)
  ⟨t.1, t.2.1⟩

/-- C14: on a well-formed non-empty list, with a non-absent buffer `sp` of
capacity `c`, `1 ≤ c` (a `size_t`), `q_remove_head` returns leaving in the
buffer the first `min (len v) (c - 1)` bytes of the value `v` of the removed
element, followed by a zero byte; when `v` has no zero byte, as the content
of a C string, the buffer read as a terminated string is `v` cut to `c - 1`
bytes.  `q_remove_tail` does the same with the value of the last element.
With the absent buffer `0` the caller memory is not written and the element
is removed all the same. -/
theorem q_remove_copies_value (m : Mem) (head : Nat) (L : List Nat) (sp c : Nat)
    (h : WF m head L) (hc1 : 1 ≤ c) (hc2 : c < SIZE_MOD) :
    (∀ e es, L = e :: es →
      (sp ≠ 0 → ∃ m1, q_remove_head m head sp c = some (e, m1) ∧
        (∀ i < min (m.str (m.value e)).length (c - 1),
          m1.buf (sp + i) = (m.str (m.value e)).getD i 0) ∧
        m1.buf (sp + min (m.str (m.value e)).length (c - 1)) = 0 ∧
        ((∀ b ∈ m.str (m.value e), b ≠ 0) →
          ∀ fuel, min (m.str (m.value e)).length (c - 1) < fuel →
            read_cstr m1.buf fuel sp = some ((m.str (m.value e)).take (c - 1)))) ∧
      (∃ m1, q_remove_head m head 0 c = some (e, m1) ∧ m1.buf = m.buf ∧ WF m1 head es)) ∧
    (∀ es e, L = es ++ [e] →
      (sp ≠ 0 → ∃ m1, q_remove_tail m head sp c = some (e, m1) ∧
        (∀ i < min (m.str (m.value e)).length (c - 1),
          m1.buf (sp + i) = (m.str (m.value e)).getD i 0) ∧
        m1.buf (sp + min (m.str (m.value e)).length (c - 1)) = 0 ∧
        ((∀ b ∈ m.str (m.value e), b ≠ 0) →
          ∀ fuel, min (m.str (m.value e)).length (c - 1) < fuel →
            read_cstr m1.buf fuel sp = some ((m.str (m.value e)).take (c - 1)))) ∧
      (∃ m1, q_remove_tail m head 0 c = some (e, m1) ∧ m1.buf = m.buf ∧ WF m1 head es)) := by
  constructor
  · intro e es hL
    subst hL
    constructor
    · intro hsp
      obtain ⟨m1, e1, e2⟩ := q_remove_head_buf sp c h.1 (Or.inr ⟨hc1, hc2⟩)
      rw [if_pos hsp] at e2
      obtain ⟨k1, k2, k3, _⟩ := copy_out_string m sp (m.str (m.value e)) c hc1 hc2
      rw [← e2] at k1 k2 k3
      exact ⟨m1, e1, k1, k2, k3⟩
    · obtain ⟨m1, w1, w2, _⟩ := q_remove_head_wf 0 c h (Or.inl rfl)
      obtain ⟨m2, e1, e2⟩ := q_remove_head_buf 0 c h.1 (Or.inl rfl)
      rw [w1] at e1
      have hm : m1 = m2 := (Prod.mk.inj (Option.some.inj e1)).2
      subst hm
      exact ⟨m1, w1, by simpa using e2, w2⟩
  · intro es e hL
    subst hL
    constructor
    · intro hsp
      obtain ⟨m1, e1, e2⟩ := q_remove_tail_buf sp c h.1 (Or.inr ⟨hc1, hc2⟩)
      rw [if_pos hsp] at e2
      obtain ⟨k1, k2, k3, _⟩ := copy_out_string m sp (m.str (m.value e)) c hc1 hc2
      rw [← e2] at k1 k2 k3
      exact ⟨m1, e1, k1, k2, k3⟩
    · obtain ⟨m1, w1, w2, _⟩ := q_remove_tail_wf 0 c h (Or.inl rfl)
      obtain ⟨m2, e1, e2⟩ := q_remove_tail_buf 0 c h.1 (Or.inl rfl)
      rw [w1] at e1
      have hm : m1 = m2 := (Prod.mk.inj (Option.some.inj e1)).2
      subst hm
      exact ⟨m1, w1, by simpa using e2, w2⟩

/-- The copy of the value `"abc"` into a buffer of capacity `3` at `100`. -/
theorem q_remove_copies_value_witness :
    WF (build [[97, 98, 99]]) 1 [2] ∧
    (∃ m1, q_remove_head (build [[97, 98, 99]]) 1 100 3 = some (2, m1) ∧
      read_cstr m1.buf 3 100
        = some (((build [[97, 98, 99]]).str ((build [[97, 98, 99]]).value 2)).take (3 - 1))) ∧
    (∃ m1, q_remove_tail (build [[97, 98, 99]]) 1 100 3 = some (2, m1) ∧
      read_cstr m1.buf 3 100
        = some (((build [[97, 98, 99]]).str ((build [[97, 98, 99]]).value 2)).take (3 - 1))) :=
  have t := q_remove_copies_value (build [[97, 98, 99]]) 1 [2] 100 3 (by decide) (by decide)
    (by decide)
  have t1 := (t.1 2 [] rfl).1 (by decide)
  have t2 := (t.2 [] 2 rfl).1 (by decide)
  ⟨by decide,
    ⟨t1.choose, t1.choose_spec.1, t1.choose_spec.2.2.2 (by decide) 3 (by decide)⟩,
    ⟨t2.choose, t2.choose_spec.1, t2.choose_spec.2.2.2 (by decide) 3 (by decide)⟩⟩

/-- C18 fails as stated: with capacity `0` and the buffer at `100`, on the
list holding `"a"` the copy of the remove operations is asked for
`0 - 1 = 2 ^ 64 - 1` bytes; it writes the byte `97` at buffer index `0`, which
is not strictly below the capacity, and `q_remove_head` and `q_remove_tail`
run past the buffer without a result. -/
theorem q_remove_zero_capacity_writes :
    WF (build [[97]]) 1 [2] ∧ (0 + (SIZE_MOD - 1)) % SIZE_MOD = 18446744073709551615 ∧
    (build [[97]]).buf (100 + 0) = 0 ∧
    (copy_out (build [[97]]) 100 ((build [[97]]).str ((build [[97]]).value 2)) 0).buf
      (100 + 0) = 97 ∧
    q_remove_head (build [[97]]) 1 100 0 = none ∧
    q_remove_tail (build [[97]]) 1 100 0 = none :=
  ⟨by decide, by decide, by decide, by decide, rfl, rfl⟩

/-- C18 as amended: on a well-formed list, with a non-absent buffer `sp` of
capacity `c`, `1 ≤ c` (a `size_t`), `q_remove_head` and `q_remove_tail` return
leaving every byte of the caller memory outside the positions
`sp + 0 .. sp + (c - 1)` as it was, and on a non-empty list they leave a zero
byte at position `c - 1`, inside the buffer. -/
theorem q_remove_writes_inside (m : Mem) (head : Nat) (L : List Nat) (sp c : Nat)
    (h : WF m head L) (hsp : sp ≠ 0) (hc1 : 1 ≤ c) (hc2 : c < SIZE_MOD) :
    ∃ r1 r2, q_remove_head m head sp c = some r1 ∧ q_remove_tail m head sp c = some r2 ∧
      (∀ a, a < sp ∨ sp + c ≤ a → r1.2.buf a = m.buf a ∧ r2.2.buf a = m.buf a) ∧
      (L ≠ [] → r1.2.buf (sp + (c - 1)) = 0 ∧ r2.2.buf (sp + (c - 1)) = 0) := by
  by_cases hL : L = []
  · subst hL
    exact ⟨(0, m), (0, m), q_remove_head_absent m head sp c [] (Or.inr ⟨h.1, rfl⟩),
      q_remove_tail_absent m head sp c [] (Or.inr ⟨h.1, rfl⟩),
      fun _ _ => ⟨rfl, rfl⟩, fun hn => absurd rfl hn⟩
  · obtain ⟨es, e, hs⟩ := exists_snoc L hL
    cases L with
    | nil => exact absurd rfl hL
    | cons x xs =>
      obtain ⟨m1, e1, b1⟩ := q_remove_head_buf sp c h.1 (Or.inr ⟨hc1, hc2⟩)
      obtain ⟨m2, e2, b2⟩ := q_remove_tail_buf sp c (hs ▸ h.1) (Or.inr ⟨hc1, hc2⟩)
      rw [if_pos hsp] at b1 b2
      obtain ⟨_, _, _, k4, k5⟩ := copy_out_string m sp (m.str (m.value x)) c hc1 hc2
      obtain ⟨_, _, _, j4, j5⟩ := copy_out_string m sp (m.str (m.value e)) c hc1 hc2
      rw [← b1] at k4 k5
      rw [← b2] at j4 j5
      exact ⟨(x, m1), (e, m2), e1, e2, fun a ha => ⟨k4 a ha, j4 a ha⟩, fun _ => ⟨k5, j5⟩⟩

/-- The removal from the list holding `"abc"` with a buffer of capacity `2`. -/
theorem q_remove_writes_inside_witness :
    WF (build [[97, 98, 99]]) 1 [2] ∧
    ∃ r1 r2, q_remove_head (build [[97, 98, 99]]) 1 100 2 = some r1 ∧
      q_remove_tail (build [[97, 98, 99]]) 1 100 2 = some r2 ∧
      (∀ a, a < 100 ∨ 100 + 2 ≤ a →
        r1.2.buf a = (build [[97, 98, 99]]).buf a ∧
        r2.2.buf a = (build [[97, 98, 99]]).buf a) ∧
      (([2] : List Nat) ≠ [] → r1.2.buf (100 + (2 - 1)) = 0 ∧ r2.2.buf (100 + (2 - 1)) = 0) :=
  ⟨by decide, q_remove_writes_inside (build [[97, 98, 99]]) 1 [2] 100 2 (by decide)
    (by decide) (by decide) (by decide)⟩

/-- C19: on a well-formed non-empty list of `n` elements (`n` at most
`INT_MAX`), `q_delete_mid` removes exactly the element at 0-based index
`(n - 1) / 2`, which is `(n + 1) / 2 - 1`: the first index `k` at which `n`
less `2` per visited element is no longer positive.  The elements before and
after it stay, in their order.  For six elements the index is `2`, for odd
`n` it is `n / 2`. -/
theorem q_delete_mid_index (m : Mem) (head : Nat) (L : List Nat) (fuel : Nat)
    (h : WF m head L) (hne : L ≠ []) (hlen : L.length ≤ INT_MAX) (hf : L.length < fuel) :
    (∃ m1 x, q_delete_mid fuel m head = some (true, m1) ∧
      L[(L.length - 1) / 2]? = some x ∧
      WF m1 head (L.take ((L.length - 1) / 2) ++ L.drop ((L.length - 1) / 2 + 1)) ∧
      x ∉ L.take ((L.length - 1) / 2) ++ L.drop ((L.length - 1) / 2 + 1)) ∧
    (L.length - 1) / 2 = (L.length + 1) / 2 - 1 ∧
    ((L.length : Int) - 2 * (((L.length - 1) / 2 : Nat) + 1) ≤ 0 ∧
      ∀ j : Nat, j < (L.length - 1) / 2 → 0 < (L.length : Int) - 2 * ((j : Int) + 1)) ∧
    (L.length = 6 → (L.length - 1) / 2 = 2) ∧
    (L.length % 2 = 1 → (L.length - 1) / 2 = L.length / 2) := by
  have hpos : 0 < L.length := List.length_pos.2 hne
  refine ⟨?_, by omega, ⟨by omega, fun j hj => by omega⟩, fun h6 => by omega,
    fun ho => by omega⟩
  obtain ⟨l1, x, l2, hL, hmid, he, hx⟩ := middle_split L hne
  rw [← List.eraseIdx_eq_take_drop_succ, he]
  subst hL
  refine ⟨_, x, q_delete_mid_isList h.1 hmid hlen hf, hx,
    ⟨isList_release h.1, (owned_release h.2).1⟩, ?_⟩
  have hnd := (List.nodup_cons.1 h.1.2.2.1).2
  have h1 := List.nodup_append.1 hnd
  have h2 := List.nodup_cons.1 h1.2.1
  intro hm
  rcases List.mem_append.1 hm with hm | hm
  · exact h1.2.2 hm (List.mem_cons_self _ _)
  · exact h2.1 hm

/-- The deletion from the list holding `"a", "b", "c", "d", "e", "f"`. -/
theorem q_delete_mid_index_witness :
    WF (build [[97], [98], [99], [100], [101], [102]]) 1 [2, 4, 6, 8, 10, 12] ∧
    ∃ m1 x, q_delete_mid 7 (build [[97], [98], [99], [100], [101], [102]]) 1
        = some (true, m1) ∧
      [2, 4, 6, 8, 10, 12][([2, 4, 6, 8, 10, 12].length - 1) / 2]? = some x ∧
      WF m1 1 ([2, 4, 6, 8, 10, 12].take (([2, 4, 6, 8, 10, 12].length - 1) / 2)
        ++ [2, 4, 6, 8, 10, 12].drop (([2, 4, 6, 8, 10, 12].length - 1) / 2 + 1)) ∧
      x ∉ [2, 4, 6, 8, 10, 12].take (([2, 4, 6, 8, 10, 12].length - 1) / 2)
        ++ [2, 4, 6, 8, 10, 12].drop (([2, 4, 6, 8, 10, 12].length - 1) / 2 + 1) :=
  ⟨by decide, (q_delete_mid_index (build [[97], [98], [99], [100], [101], [102]]) 1
    [2, 4, 6, 8, 10, 12] 7 (by decide) (by decide) (by decide) (by decide)).1⟩

/-- C20: on a well-formed list holding `L` (at most `INT_MAX` elements),
`q_swap` applied twice gives a list holding `L` again, in the original order
and with the original values; a single `q_swap` gives a list holding a
permutation of `L`, with the same number of elements, which `q_size` reports. -/
theorem q_swap_twice_restores (m : Mem) (head : Nat) (L : List Nat) (fuel : Nat)
    (h : WF m head L) (hlen : L.length ≤ INT_MAX) (hf : L.length < fuel) :
    ∃ m1 m2, q_swap fuel m head = some m1 ∧ q_swap fuel m1 head = some m2 ∧
      WF m2 head L ∧ vals m2 L = vals m L ∧
      WF m1 head (swapPairs L) ∧ (swapPairs L).Perm L ∧
      (swapPairs L).length = L.length ∧ q_size fuel m1 head = some L.length := by
  obtain ⟨m1, a1, a2, a3⟩ := q_swap_wf h hlen hf
  have hl : (swapPairs L).length = L.length := swapPairs_length L
  have hlen1 : (swapPairs L).length ≤ INT_MAX := by omega
  have hf1 : (swapPairs L).length < fuel := by omega
  obtain ⟨m2, b1, b2, b3⟩ := q_swap_wf a2 hlen1 hf1
  rw [swapPairs_swapPairs L.length L le_rfl] at b2 b3
  refine ⟨m1, m2, a1, b1, b2, ?_, a2, swapPairs_perm L.length L le_rfl, hl, ?_⟩
  · rw [b3, a3, swapPairs_swapPairs (vals m L).length (vals m L) le_rfl]
  · rw [← hl]
    exact q_size_isList a2.1 hlen1 hf1

/-- The double swap on the list holding `"a", "b", "c"`. -/
theorem q_swap_twice_restores_witness :
    WF (build [[97], [98], [99]]) 1 [2, 4, 6] ∧
    ∃ m1 m2, q_swap 4 (build [[97], [98], [99]]) 1 = some m1 ∧ q_swap 4 m1 1 = some m2 ∧
      WF m2 1 [2, 4, 6] ∧ vals m2 [2, 4, 6] = vals (build [[97], [98], [99]]) [2, 4, 6] ∧
      WF m1 1 (swapPairs [2, 4, 6]) ∧ (swapPairs [2, 4, 6]).Perm [2, 4, 6] ∧
      (swapPairs [2, 4, 6]).length = [2, 4, 6].length ∧
      q_size 4 m1 1 = some [2, 4, 6].length :=
  ⟨by decide, q_swap_twice_restores (build [[97], [98], [99]]) 1 [2, 4, 6] 4 (by decide)
    (by decide) (by decide)⟩

end Queue
